import Mathlib

/-!
# functional_parallel.cpp: a five-node task graph under OpenMP tasking

The program `src/openmp/functional_parallel.cpp` defines five work functions
(`A`, `B`, `C`, `f1`, `f2`) and a `main` that runs them inside
`#pragma omp parallel` / `single nowait` / `task` / `taskwait`.

## Embedding

* A work function is a pure Lean function returning a `Call`: the ordered list
  of the effects of its body (one `Act` per `operator<<` on `cout`, one per
  `usleep`) together with the returned `int`.
* `main` is a transition system.  A `State` holds the shared variables, the
  status of the three explicit tasks, the control point of the thread that
  executes the `single` block (and, after the region, of the initial thread),
  and the trace of everything done so far.  `step` takes a scheduler `Choice`
  and performs one atomic action; `exec` runs a whole schedule and `main` runs
  it from the initial state.
* `int` is 32-bit two's complement: `wrapInt32`, `mulInt`, `addInt`.

## What the scheduler may do

* Any thread of the team may be the one that takes the `single` block; the
  others pass it (`nowait`) and wait at the barrier that ends the region.
* The three tasks are tied and their bodies hold no task scheduling point: a
  thread that has begun a task performs its operations in order, and begins no
  other task before this one is complete.  Different threads interleave freely.
* A waiting task may be begun by any idle thread at the barrier, and by the
  thread of the `single` block at its task scheduling points: right after it
  has generated a task, and at the `taskwait`.
* The `taskwait` returns when the three tasks, children of the block, are
  complete; the region ends when all tasks are complete.
* Every insertion into `cout` (`<< "..."`, `<< th`, `<< endl`) is a step of its
  own: the stream is safe to share between threads but gives no more than
  that, so two threads that print at the same time can mix the pieces of their
  lines.
* Shared variables are read and written in interleaving order.  This is the
  meaning of the program because it has no data race: each variable has one
  writer, and every read follows the `taskwait` or the end of the region.
* `usleep` is a step without effect on the state; time is not measured.
-/

namespace FunctionalParallel

/-! ## Machine integers -/

/-- The values of the C++ type `int` (32 bits, two's complement). -/
def inInt32 (z : Int) : Prop := -2147483648 ≤ z ∧ z < 2147483648

instance (z : Int) : Decidable (inInt32 z) := by
  unfold inInt32; infer_instance

/-- Reduction of a mathematical integer to the `int` with the same residue. -/
def wrapInt32 (z : Int) : Int := (z + 2147483648) % 4294967296 - 2147483648

/-- The `int` product `a*b`. -/
def mulInt (a b : Int) : Int := wrapInt32 (a * b)

/-- The `int` sum `a+b`. -/
def addInt (a b : Int) : Int := wrapInt32 (a + b)

/-- Conversion of an `int` to `useconds_t` (unsigned, 32 bits), the parameter
type of `usleep`. -/
def toUseconds (z : Int) : Nat := (z % 4294967296).toNat

/-! ## Output tokens and effects of a function body -/

/-- One insertion into `cout`: a string literal, an `int`, or `endl`. -/
inductive Tok where
  | str (s : String)
  | int (i : Int)
  | endl
  deriving DecidableEq

/-- One effect of a function body. -/
inductive Act where
  | put (t : Tok)
  | usleep (us : Nat)
  deriving DecidableEq

/-- The outcome of running a function body: its effects in program order and
the value it returns. -/
structure Call where
  acts : List Act
  ret : Int
  deriving DecidableEq

/-- Source lines 7-12: `int A(int th)`. -/
def A (th : Int) : Call :=
  { acts := [.put (.str "Processing A, th="), .put (.int th), .put .endl,
             .usleep (toUseconds (mulInt (mulInt 1000 1000) 7)),
             .put (.str "A Done"), .put .endl],
    ret := 1 }

/-- Source lines 14-19: `int B(int th)`. -/
def B (th : Int) : Call :=
  { acts := [.put (.str "Processing B, th="), .put (.int th), .put .endl,
             .usleep (toUseconds (mulInt (mulInt 1000 1000) 6)),
             .put (.str "B Done"), .put .endl],
    ret := 10 }

/-- Source lines 21-26: `int C(int th)`. -/
def C (th : Int) : Call :=
  { acts := [.put (.str "Processing C, th="), .put (.int th), .put .endl,
             .usleep (toUseconds (mulInt (mulInt 1000 1000) 5)),
             .put (.str "C Done"), .put .endl],
    ret := 20 }

/-- Source lines 28-32: `int f1(int a, int b, int th)`. -/
def f1 (a b th : Int) : Call :=
  { acts := [.put (.str "Processing f1, th="), .put (.int th), .put .endl,
             .usleep (toUseconds (mulInt (mulInt 1000 1000) 4))],
    ret := addInt a b }

/-- Source lines 34-38: `int f2(int a, int b, int th)`. -/
def f2 (a b th : Int) : Call :=
  { acts := [.put (.str "Processing f2, th="), .put (.int th), .put .endl,
             .usleep (toUseconds (mulInt (mulInt 1000 1000) 5))],
    ret := addInt a b }

/-- The tokens a list of effects sends to `cout`, in order. -/
def tokensOf : List Act → List Tok
  | [] => []
  | .put t :: rest => t :: tokensOf rest
  | .usleep _ :: rest => tokensOf rest

/-- The delays a list of effects passes to `usleep`, in order. -/
def sleepsOf : List Act → List Nat
  | [] => []
  | .put _ :: rest => sleepsOf rest
  | .usleep us :: rest => us :: sleepsOf rest

/-- Auxiliary for `linesOf`: `cur` is the line being assembled, reversed. -/
def linesAux : List Tok → List Tok → List (List Tok)
  | cur, [] => if cur = [] then [] else [cur.reverse]
  | cur, .endl :: rest => cur.reverse :: linesAux [] rest
  | cur, t :: rest => linesAux (t :: cur) rest

/-- The lines of an output: maximal runs of tokens, each closed by `endl`
(a last unterminated run counts as a line when it is not empty). -/
def linesOf (out : List Tok) : List (List Tok) := linesAux [] out

/-- The characters a token puts on the stream. -/
def Tok.render : Tok → String
  | .str s => s
  | .int i => toString i
  | .endl => "\n"

/-- The text of a line. -/
def renderLine (l : List Tok) : String := String.join (l.map Tok.render)

/-! ## The transition system of `main` -/

/-- The five work functions. -/
inductive Fn where
  | A | B | C | f1 | f2
  deriving DecidableEq

/-- The shared variables of `main` (source line 43). -/
inductive Var where
  | y | v | w | x | e
  deriving DecidableEq

/-- The three explicit tasks generated in the `single` block. -/
inductive Tk where
  | A | B | C
  deriving DecidableEq

/-- Who performs an event: one of the explicit tasks, or the code of `main`
itself (the `single` block after the `taskwait`, and the final print). -/
inductive Who where
  | task (t : Tk)
  | main
  deriving DecidableEq

/-- One atomic operation of a statement `dst = f(args)`. -/
inductive Op where
  | call (f : Fn) (args : List Int)
  | act (a : Act)
  | ret (f : Fn) (val : Int)
  | write (dst : Var) (val : Int)
  deriving DecidableEq

/-- An entry of the trace: thread `th`, running `who`, performed `op`. -/
structure Ev where
  th : Nat
  who : Who
  op : Op
  deriving DecidableEq

/-- The operations of the statement `dst = f(args)`, where `c` is the outcome
of the call: enter `f`, the effects of its body, return, store the result. -/
def stmtOps (f : Fn) (args : List Int) (c : Call) (dst : Var) : List Op :=
  .call f args :: (c.acts.map Op.act ++ [.ret f c.ret, .write dst c.ret])

/-- The variable a task assigns. -/
def Tk.var : Tk → Var
  | .A => .y
  | .B => .v
  | .C => .w

/-- The function a task calls. -/
def Tk.fn : Tk → Fn
  | .A => .A
  | .B => .B
  | .C => .C

/-- The outcome of the call a task makes on thread `th`
(the argument is `omp_get_thread_num()`, evaluated by the executing thread). -/
def Tk.call (t : Tk) (th : Nat) : Call :=
  match t with
  | .A => FunctionalParallel.A th
  | .B => FunctionalParallel.B th
  | .C => FunctionalParallel.C th

/-- The body of a task run by thread `th` (source lines 50, 52, 54):
`y = A(omp_get_thread_num())` and its two siblings. -/
def Tk.ops (t : Tk) (th : Nat) : List Op :=
  stmtOps t.fn [(th : Int)] (t.call th) t.var

/-- Status of an explicit task. -/
inductive TaskSt where
  | absent
  | ready
  | running (th : Nat) (rest : List Op)
  | done (th : Nat)
  deriving DecidableEq

/-- Control points of `main`. -/
inductive Pc where
  | fork
  | spawnA
  | spawnB
  | spawnC
  | taskwait
  | callF1
  | inF1
  | callF2
  | inF2
  | join
  | print
  | inPrint
  | ret
  | halted
  deriving DecidableEq

/-- The state of an execution of `main`. -/
structure State where
  mem : Var → Int
  task : Tk → TaskSt
  single : Nat
  pc : Pc
  cont : List Op
  trace : List Ev
  exit : Option Int

/-- Pointwise update of the shared variables. -/
def setVar (m : Var → Int) (dst : Var) (val : Int) : Var → Int :=
  fun z => if z = dst then val else m z

/-- Pointwise update of the task table. -/
def setTask (f : Tk → TaskSt) (t : Tk) (s : TaskSt) : Tk → TaskSt :=
  fun t' => if t' = t then s else f t'

/-- The state at the start of `main` (source line 43: `y=0, v=0, w=0, x, e`).
`x` and `e` are not initialised: their first values `x0`, `e0` are arbitrary. -/
def init (x0 e0 : Int) : State :=
  { mem := fun
      | .y => 0
      | .v => 0
      | .w => 0
      | .x => x0
      | .e => e0,
    task := fun _ => .absent,
    single := 0,
    pc := .fork,
    cont := [],
    trace := [],
    exit := none }

/-- The effect of an operation on the shared variables. -/
def applyOp (m : Var → Int) : Op → Var → Int
  | .write dst val => setVar m dst val
  | _ => m

/-- Thread `th` running `who` performs `op`: the event joins the trace and a
`write` reaches the shared variables. -/
def State.emit (st : State) (th : Nat) (who : Who) (op : Op) : State :=
  { st with trace := st.trace ++ [⟨th, who, op⟩], mem := applyOp st.mem op }

/-- Thread `th` is in the middle of task `t`. -/
def TaskSt.onThread (th : Nat) : TaskSt → Bool
  | .running th' _ => th' == th
  | _ => false

/-- Thread `th` is in the middle of an explicit task. -/
def State.busy (st : State) (th : Nat) : Bool :=
  (st.task .A).onThread th || (st.task .B).onThread th || (st.task .C).onThread th

/-- The task has completed. -/
def TaskSt.isDone : TaskSt → Bool
  | .done _ => true
  | _ => false

/-- All three explicit tasks have completed. -/
def State.allDone (st : State) : Bool :=
  (st.task .A).isDone && (st.task .B).isDone && (st.task .C).isDone

/-- The control points at which the thread in the `single` block may pick up
a waiting task: right after it generated a task, and at the `taskwait`. -/
def Pc.schedPoint : Pc → Bool
  | .spawnB | .spawnC | .taskwait => true
  | _ => false

/-- What the scheduler decides next. -/
inductive Choice where
  | single (th : Nat)
  | start (t : Tk) (th : Nat)
  | run (t : Tk)
  | main
  deriving DecidableEq

/-- One step of `main` for a team of `n` threads; `none` when the choice is
not enabled.

* `single th`: the region is entered and thread `th` takes the `single` block;
  the other threads skip it (`nowait`) and wait at the end of the region,
  where they may run tasks.
* `start t th`: idle thread `th` begins the waiting task `t`.
* `run t`: the thread running `t` performs the next operation of its body,
  or completes the task when none is left.
* `main`: the thread in the `single` block (after the region: the initial
  thread, number 0) performs its next action; inside the block it does so only
  when it is not in the middle of a task. -/
def step (n : Nat) (st : State) : Choice → Option State
  | .single th =>
      if st.pc = .fork ∧ th < n then some { st with pc := .spawnA, single := th } else none
  | .start t th =>
      if th < n ∧ st.task t = .ready ∧ st.busy th = false ∧
          (th = st.single → st.pc.schedPoint = true) then
        some { st with task := setTask st.task t (.running th (t.ops th)) }
      else none
  | .run t =>
      match st.task t with
      | .running th (op :: rest) =>
          some { st.emit th (.task t) op with task := setTask st.task t (.running th rest) }
      | .running th [] => some { st with task := setTask st.task t (.done th) }
      | _ => none
  | .main =>
      match st.pc with
      | .fork => none
      | .spawnA =>
          if st.busy st.single = false then
            some { st with task := setTask st.task .A .ready, pc := .spawnB }
          else none
      | .spawnB =>
          if st.busy st.single = false then
            some { st with task := setTask st.task .B .ready, pc := .spawnC }
          else none
      | .spawnC =>
          if st.busy st.single = false then
            some { st with task := setTask st.task .C .ready, pc := .taskwait }
          else none
      | .taskwait =>
          if st.allDone = true ∧ st.busy st.single = false then some { st with pc := .callF1 }
          else none
      | .callF1 =>
          some { st with
            cont := stmtOps .f1 [st.mem .v, st.mem .w, (st.single : Int)]
                      (f1 (st.mem .v) (st.mem .w) st.single) .x,
            pc := .inF1 }
      | .inF1 =>
          match st.cont with
          | op :: rest => some { st.emit st.single .main op with cont := rest }
          | [] => some { st with pc := .callF2 }
      | .callF2 =>
          some { st with
            cont := stmtOps .f2 [st.mem .y, st.mem .x, (st.single : Int)]
                      (f2 (st.mem .y) (st.mem .x) st.single) .e,
            pc := .inF2 }
      | .inF2 =>
          match st.cont with
          | op :: rest => some { st.emit st.single .main op with cont := rest }
          | [] => some { st with pc := .join }
      | .join => if st.allDone = true then some { st with pc := .print } else none
      | .print =>
          some { st with
            cont := [.act (.put (.str "e= ")), .act (.put (.int (st.mem .e))),
                     .act (.put .endl)],
            pc := .inPrint }
      | .inPrint =>
          match st.cont with
          | op :: rest => some { st.emit 0 .main op with cont := rest }
          | [] => some { st with pc := .ret }
      | .ret => some { st with exit := some 0, pc := .halted }
      | .halted => none

/-- Run a schedule from a state. -/
def exec (n : Nat) : List Choice → State → Option State
  | [], st => some st
  | c :: cs, st => (step n st c).bind (exec n cs)

/-- The whole program under a schedule. -/
def main (n : Nat) (sched : List Choice) (x0 e0 : Int) : Option State :=
  exec n sched (init x0 e0)

/-- The token an event sends to `cout`, if any. -/
def Ev.tok? : Ev → Option Tok
  | ⟨_, _, .act (.put t)⟩ => some t
  | _ => none

/-- Standard output after a trace. -/
def outputOf (tr : List Ev) : List Tok := tr.filterMap Ev.tok?

/-- Standard output of a state. -/
def State.output (st : State) : List Tok := outputOf st.trace

/-! ## The invariant of `main` -/

/-- The events of thread `th` performing `ops` on behalf of `who`. -/
def evsOf (th : Nat) (who : Who) (ops : List Op) : List Ev := ops.map (Ev.mk th who)

/-- The events of a trace performed by `w`, in order. -/
def proj (w : Who) (tr : List Ev) : List Ev := tr.filter (fun ev => decide (ev.who = w))

/-- The events of a trace performed by the explicit tasks, in order. -/
def taskPart (tr : List Ev) : List Ev := tr.filter (fun ev => decide (ev.who ≠ .main))

/-- The value a task stores. -/
def Tk.val : Tk → Int
  | .A => 1
  | .B => 10
  | .C => 20

/-- The events of `x = f1(v, w, omp_get_thread_num())` on thread `s`, when `v = 10`, `w = 20`. -/
def lineX (s : Nat) : List Ev := evsOf s .main (stmtOps .f1 [10, 20, (s : Int)] (f1 10 20 s) .x)

/-- The events of `e = f2(y, x, omp_get_thread_num())` on thread `s`, when `y = 1`, `x = 30`. -/
def lineE (s : Nat) : List Ev := evsOf s .main (stmtOps .f2 [1, 30, (s : Int)] (f2 1 30 s) .e)

/-- The events of the final print when `e = 31`. -/
def lineP : List Ev :=
  evsOf 0 .main [.act (.put (.str "e= ")), .act (.put (.int 31)), .act (.put .endl)]

/-- What the trace must hold of task `t`, given its status. -/
def TaskOK (n : Nat) (t : Tk) (tr : List Ev) : TaskSt → Prop
  | .absent => proj (.task t) tr = []
  | .ready => proj (.task t) tr = []
  | .running th rest =>
      th < n ∧ proj (.task t) tr ++ evsOf th (.task t) rest = evsOf th (.task t) (t.ops th)
  | .done th => th < n ∧ proj (.task t) tr = evsOf th (.task t) (t.ops th)

/-- What the variable of task `t` must hold, given the status of the task. -/
def MemOK (t : Tk) (m : Var → Int) : TaskSt → Prop
  | .absent => True
  | .ready => True
  | .running _ rest => m t.var = t.val ∨ Op.write t.var t.val ∈ rest
  | .done _ => m t.var = t.val

/-- Whether task `t` has been generated when `main` is at this control point. -/
def Pc.spawned : Pc → Tk → Bool
  | .fork, _ => false
  | .spawnA, _ => false
  | .spawnB, t => decide (t = .A)
  | .spawnC, t => decide (t = .A ∨ t = .B)
  | _, _ => true

/-- The control points after the `taskwait`. -/
def Pc.late : Pc → Bool
  | .fork | .spawnA | .spawnB | .spawnC | .taskwait => false
  | _ => true

/-- What holds at each control point of `main`: `m` are the events of `main` so far,
`cont` the operations left in its current statement, `s` the thread of the `single`
block, `x` and `e` the current values of the two variables. -/
def MainOK (m : List Ev) (cont : List Op) (s : Nat) (x e : Int) : Pc → Prop
  | .fork | .spawnA | .spawnB | .spawnC | .taskwait | .callF1 => m = []
  | .inF1 => m ++ evsOf s .main cont = lineX s ∧ (x = 30 ∨ Op.write .x 30 ∈ cont)
  | .callF2 => m = lineX s ∧ x = 30
  | .inF2 => m ++ evsOf s .main cont = lineX s ++ lineE s ∧ (e = 31 ∨ Op.write .e 31 ∈ cont)
  | .join | .print => m = lineX s ++ lineE s ∧ e = 31
  | .inPrint => m ++ evsOf 0 .main cont = lineX s ++ lineE s ++ lineP
  | .ret | .halted => m = lineX s ++ lineE s ++ lineP

/-- The invariant of `main`. -/
structure Inv (n : Nat) (st : State) : Prop where
  ord : st.trace = taskPart st.trace ++ proj .main st.trace
  tasks : ∀ t, TaskOK n t st.trace (st.task t)
  vals : ∀ t, MemOK t st.mem (st.task t)
  gen : ∀ t, st.task t = .absent ↔ st.pc.spawned t = false
  late : st.pc.late = true → ∀ t, ∃ th, st.task t = .done th
  sing : st.pc ≠ .fork → st.single < n
  code : st.exit = if st.pc = .halted then some 0 else none
  main : MainOK (proj .main st.trace) st.cont st.single (st.mem .x) (st.mem .e) st.pc

/-- Upper bound on the steps a task can still take. -/
def TaskSt.fuel : TaskSt → Nat
  | .absent => 12
  | .ready => 11
  | .running _ rest => rest.length + 1
  | .done _ => 0

/-- Number of control points of `main` still ahead. -/
def Pc.rank : Pc → Nat
  | .fork => 13
  | .spawnA => 12
  | .spawnB => 11
  | .spawnC => 10
  | .taskwait => 9
  | .callF1 => 8
  | .inF1 => 7
  | .callF2 => 6
  | .inF2 => 5
  | .join => 4
  | .print => 3
  | .inPrint => 2
  | .ret => 1
  | .halted => 0

/-- Upper bound on the number of steps left from a state. -/
def State.fuel (st : State) : Nat :=
  12 * st.pc.rank + st.cont.length +
    ((st.task .A).fuel + (st.task .B).fuel + (st.task .C).fuel)

/-- Everything `main` itself does in a complete run, the `single` block being
executed by thread `s`. -/
def mainEvents (s : Nat) : List Ev := lineX s ++ lineE s ++ lineP

/-- The events of task `t` when thread `th` runs it. -/
def taskEvents (t : Tk) (th : Nat) : List Ev := evsOf th (.task t) (t.ops th)

/-- The event sends a token to `cout`. -/
def Ev.hasTok (ev : Ev) : Bool := ev.tok?.isSome

/-- A schedule for a team of two: thread 0 takes the `single` block and runs task A,
thread 1 runs B at the same time, then C; the insertions of A and B alternate. -/
def demoSchedule : List Choice :=
  [.single 0, .main, .main, .main, .start .A 0, .start .B 1,
   .run .A, .run .A, .run .B, .run .B, .run .A, .run .B, .run .A, .run .B] ++
  List.replicate 6 (.run .A) ++ List.replicate 6 (.run .B) ++
  [.start .C 1] ++ List.replicate 10 (.run .C) ++ List.replicate 26 .main

/-- The state `demoSchedule` ends in, `x` and `e` holding 5 and 7 at the start. -/
def demoFinal : State := (main 2 demoSchedule 5 7).getD (init 5 7)

/-- The state of `demoSchedule` when `f1` is about to be called. -/
def demoAtF1 : State := (main 2 (demoSchedule.take 38) 5 7).getD (init 5 7)

/-- The event is a store into `d`. -/
def Ev.writesTo (d : Var) (ev : Ev) : Bool :=
  match ev.op with
  | .write d2 _ => decide (d2 = d)
  | _ => false

/-- How many times a trace stores into `d`. -/
def writeCount (d : Var) (tr : List Ev) : Nat := tr.countP (Ev.writesTo d)

/-- The token that opens the start line of a function. -/
def startTok : Fn → Tok
  | .A => .str "Processing A, th="
  | .B => .str "Processing B, th="
  | .C => .str "Processing C, th="
  | .f1 => .str "Processing f1, th="
  | .f2 => .str "Processing f2, th="

/-- The token of the completion line of a task. -/
def doneTok : Tk → Tok
  | .A => .str "A Done"
  | .B => .str "B Done"
  | .C => .str "C Done"

/-- The line is the start line of `f`: its start token followed by a worker id. -/
def isStartLine (f : Fn) : List Tok → Bool
  | [t, .int _] => decide (t = startTok f)
  | _ => false

/-- The line is the completion line of task `t`. -/
def isDoneLine (t : Tk) (l : List Tok) : Bool := decide (l = [doneTok t])

/-- The line is a final line `e= <value>`. -/
def isFinalLine : List Tok → Bool
  | [t, .int _] => decide (t = .str "e= ")
  | _ => false

/-- The layout of the output as nine whole lines: one start line for each of the five
functions, one completion line for each of the three tasks, one final line. -/
def NineLines (out : List Tok) : Prop :=
  (linesOf out).length = 9 ∧
    (∀ f : Fn, (linesOf out).countP (isStartLine f) = 1) ∧
    (∀ t : Tk, (linesOf out).countP (isDoneLine t) = 1) ∧
    (linesOf out).countP isFinalLine = 1

/-- The event is the entry into function `f`. -/
def Ev.isCallOf (f : Fn) (ev : Ev) : Bool :=
  match ev.op with
  | .call g _ => decide (g = f)
  | _ => false

/-- Erase a worker id: every `int` token becomes the same token. -/
def eraseId : Tok → Tok
  | .int _ => .int 0
  | t => t

/-- A schedule for a team of one: the only thread generates the three tasks and runs
them one after the other at the `taskwait`. -/
def seqSchedule : List Choice :=
  [.single 0, .main, .main, .main, .start .A 0] ++ List.replicate 10 (.run .A) ++
  [.start .B 0] ++ List.replicate 10 (.run .B) ++
  [.start .C 0] ++ List.replicate 10 (.run .C) ++ List.replicate 26 .main

/-- The state `seqSchedule` ends in, `x` and `e` holding 5 and 7 at the start. -/
def seqFinal : State := (main 1 seqSchedule 5 7).getD (init 5 7)

/-- Two outputs are the same lines up to worker ids and order. -/
def SameLines (out1 out2 : List Tok) : Prop :=
  ((linesOf out1).map (List.map eraseId)).Perm ((linesOf out2).map (List.map eraseId))

/-- The events of the tasks `ts` run one after the other, whole, by thread 0. -/
def seqEvents : List Tk → List Ev
  | [] => []
  | t :: ts => taskEvents t 0 ++ seqEvents ts

/-- With a single thread the tasks do not overlap: the work of the tasks recorded in `tp`
is the whole bodies of the completed tasks `ds`, in the order of completion, followed by
what the one running task, if any, has done so far. -/
def SeqOK (task : Tk → TaskSt) (tp : List Ev) : Prop :=
  ∃ ds : List Tk, ds.Nodup ∧ (∀ t, t ∈ ds ↔ ∃ th, task t = .done th) ∧
    (((∀ t th rest, task t ≠ .running th rest) ∧ tp = seqEvents ds) ∨
      ∃ t th rest, task t = .running th rest ∧
        (∀ t2, t2 ≠ t → ∀ th2 rest2, task t2 ≠ .running th2 rest2) ∧
        tp = seqEvents ds ++ proj (.task t) tp)

/-- The output of a complete run on one thread that completes the tasks in the order `ds`. -/
def seqOutput (ds : List Tk) : List Tok :=
  outputOf (seqEvents ds) ++
    [.str "Processing f1, th=", .int 0, .endl, .str "Processing f2, th=", .int 0, .endl,
     .str "e= ", .int 31, .endl]

/-- The six orders in which three tasks can complete. -/
def taskOrders : List (List Tk) :=
  [[.A, .B, .C], [.A, .C, .B], [.B, .A, .C], [.B, .C, .A], [.C, .A, .B], [.C, .B, .A]]

/-! ## The invariant is inductive -/

theorem ite_some_eq {α : Type} {c : Prop} [Decidable c] {a b : α}
    (h : (if c then some a else none) = some b) : c ∧ a = b := by
  split at h
  · rename_i hc
    exact ⟨hc, Option.some.inj h⟩
  · cases h

theorem inv_init (n : Nat) (x0 e0 : Int) : Inv n (init x0 e0) := by
  refine ⟨rfl, ?_, ?_, ?_, ?_, ?_, ?_, ?_⟩
  · intro t; simp [init, TaskOK, proj]
  · intro t; simp [init, MemOK]
  · intro t; simp [init, Pc.spawned]
  · simp [init, Pc.late]
  · simp [init]
  · simp [init]
  · simp [MainOK, init, proj]

theorem proj_snoc (w : Who) (tr : List Ev) (ev : Ev) :
    proj w (tr ++ [ev]) = if ev.who = w then proj w tr ++ [ev] else proj w tr := by
  unfold proj
  by_cases h : ev.who = w <;> simp [List.filter_append, List.filter_cons, h]

theorem taskPart_snoc (tr : List Ev) (ev : Ev) :
    taskPart (tr ++ [ev]) = if ev.who = .main then taskPart tr else taskPart tr ++ [ev] := by
  unfold taskPart
  by_cases h : ev.who = .main <;> simp [List.filter_append, List.filter_cons, h]

theorem TaskOK.congr_proj {n : Nat} {t : Tk} {tr tr2 : List Ev} {ts : TaskSt}
    (h : proj (.task t) tr2 = proj (.task t) tr) (hk : TaskOK n t tr ts) : TaskOK n t tr2 ts := by
  cases ts <;> simp only [TaskOK] at hk ⊢ <;> rw [h] <;> exact hk

theorem MemOK.congr_var {t : Tk} {m m2 : Var → Int} {ts : TaskSt}
    (h : m2 t.var = m t.var) (hk : MemOK t m ts) : MemOK t m2 ts := by
  cases ts <;> simp only [MemOK] at hk ⊢ <;> first | trivial | (rw [h]; exact hk)

theorem allDone_iff (st : State) : st.allDone = true ↔ ∀ t, ∃ th, st.task t = .done th := by
  unfold State.allDone
  constructor
  · intro h t
    simp only [Bool.and_eq_true] at h
    obtain ⟨⟨ha, hb⟩, hc⟩ := h
    cases t
    · cases hA : st.task .A <;> simp [hA, TaskSt.isDone] at ha ⊢
    · cases hB : st.task .B <;> simp [hB, TaskSt.isDone] at hb ⊢
    · cases hC : st.task .C <;> simp [hC, TaskSt.isDone] at hc ⊢
  · intro h
    obtain ⟨a, ha⟩ := h .A
    obtain ⟨b, hb⟩ := h .B
    obtain ⟨c, hc⟩ := h .C
    simp [ha, hb, hc, TaskSt.isDone]

/-- While a task is unfinished, `main` has contributed no event. -/
theorem Inv.early {n : Nat} {st : State} (h : Inv n st) (t : Tk)
    (ht : ∀ th, st.task t ≠ .done th) : proj .main st.trace = [] ∧ st.pc.late = false := by
  have hl : st.pc.late = false := by
    cases hh : st.pc.late
    · rfl
    · obtain ⟨th, hth⟩ := h.late hh t
      exact absurd hth (ht th)
  refine ⟨?_, hl⟩
  have hm := h.main
  cases hp : st.pc <;> rw [hp] at hm hl <;> first | exact hm | cases hl

theorem inv_single {n : Nat} {st st2 : State} {th : Nat} (h : Inv n st)
    (hs : step n st (.single th) = some st2) : Inv n st2 := by
  simp only [step] at hs
  split at hs
  · rename_i hc
    obtain ⟨hpc, hth⟩ := hc
    cases hs
    have hm := h.main
    have hg := h.gen
    simp only [hpc, MainOK] at hm
    refine ⟨h.ord, h.tasks, h.vals, ?_, ?_, ?_, ?_, ?_⟩
    · intro t; rw [hg t, hpc]; simp [Pc.spawned]
    · simp [Pc.late]
    · intro _; exact hth
    · simpa [hpc] using h.code
    · simpa [MainOK] using hm
  · cases hs

theorem inv_start {n : Nat} {st st2 : State} {t : Tk} {th : Nat} (h : Inv n st)
    (hs : step n st (.start t th) = some st2) : Inv n st2 := by
  simp only [step] at hs
  split at hs
  · rename_i hc
    obtain ⟨hth, hready, -, -⟩ := hc
    cases hs
    have he := h.early t (by rw [hready]; intro k hk; cases hk)
    refine ⟨h.ord, ?_, ?_, ?_, ?_, h.sing, h.code, h.main⟩
    · intro t2
      by_cases e : t2 = t
      · subst e
        have := h.tasks t2
        rw [hready] at this
        simp only [TaskOK] at this
        simp [setTask, TaskOK, this, hth]
      · simpa [setTask, e] using h.tasks t2
    · intro t2
      by_cases e : t2 = t
      · subst e
        simp [setTask, MemOK, Tk.ops, stmtOps]
        cases t2 <;> simp [Tk.call, A, B, C, Tk.val]
      · simpa [setTask, e] using h.vals t2
    · intro t2
      by_cases e : t2 = t
      · subst e
        have := h.gen t2
        rw [hready] at this
        simpa [setTask] using this
      · simpa [setTask, e] using h.gen t2
    · intro hl; rw [he.2] at hl; cases hl
  · cases hs


theorem ops_write {t : Tk} {th : Nat} {d : Var} {val : Int}
    (h : Op.write d val ∈ t.ops th) : d = t.var ∧ val = t.val := by
  cases t <;> simpa [Tk.ops, stmtOps, Tk.call, A, B, C, Tk.val, Tk.var, Tk.fn] using h

theorem evsOf_suffix_mem {p : List Ev} {th : Nat} {w : Who} {rest full : List Op}
    (h : p ++ evsOf th w rest = evsOf th w full) {op : Op} (ho : op ∈ rest) : op ∈ full := by
  have h1 : Ev.mk th w op ∈ evsOf th w full := by
    rw [← h]
    exact List.mem_append_right _ (List.mem_map_of_mem _ ho)
  unfold evsOf at h1
  obtain ⟨op2, h2, h3⟩ := List.mem_map.mp h1
  cases h3
  exact h2

theorem applyOp_other {m : Var → Int} {op : Op} {z : Var}
    (h : ∀ d2 val, op = .write d2 val → z ≠ d2) : applyOp m op z = m z := by
  cases op <;> simp only [applyOp]
  rename_i d2 val
  have := h d2 val rfl
  simp [setVar, this]

theorem applyOp_pop {m : Var → Int} {op : Op} {rest : List Op} {d : Var} {c : Int}
    (h : ∀ d2 val, op = .write d2 val → d2 = d → val = c)
    (hm : m d = c ∨ Op.write d c ∈ op :: rest) :
    applyOp m op d = c ∨ Op.write d c ∈ rest := by
  cases op
  case write d2 val =>
    by_cases e : d2 = d
    · left
      have := h d2 val rfl e
      simp [applyOp, setVar, e, this]
    · rcases hm with hm | hm
      · left; simp only [applyOp, setVar]; rw [if_neg (Ne.symm e)]; exact hm
      · right
        simp only [List.mem_cons] at hm
        rcases hm with hm | hm
        · cases hm; exact absurd rfl e
        · exact hm
  all_goals
    rcases hm with hm | hm
    · left; exact hm
    · right
      simp only [List.mem_cons] at hm
      rcases hm with hm | hm
      · cases hm
      · exact hm

theorem Tk.var_inj {t t2 : Tk} (h : t.var = t2.var) : t = t2 := by
  cases t <;> cases t2 <;> first | rfl | cases h

theorem Tk.var_ne_x (t : Tk) : Var.x ≠ t.var := by cases t <;> simp [Tk.var]

theorem Tk.var_ne_e (t : Tk) : Var.e ≠ t.var := by cases t <;> simp [Tk.var]

theorem inv_run {n : Nat} {st st2 : State} {t : Tk} (h : Inv n st)
    (hs : step n st (.run t) = some st2) : Inv n st2 := by
  simp only [step] at hs
  split at hs
  · rename_i th op rest hrun
    cases hs
    have he := h.early t (by rw [hrun]; intro k hk; cases hk)
    have ht := h.tasks t
    rw [hrun] at ht
    obtain ⟨hth, ht⟩ := ht
    have hop : ∀ d2 val, op = .write d2 val → d2 = t.var ∧ val = t.val := by
      intro d2 val e
      apply @ops_write t th
      exact evsOf_suffix_mem ht (by rw [e]; exact List.mem_cons_self _ _)
    have hmem : ∀ z, z ≠ t.var → applyOp st.mem op z = st.mem z :=
      fun z hz => applyOp_other (fun d2 val e => by rw [(hop d2 val e).1]; exact hz)
    refine ⟨?_, ?_, ?_, ?_, ?_, h.sing, h.code, ?_⟩
    · show st.trace ++ [_] = taskPart (st.trace ++ [_]) ++ proj .main (st.trace ++ [_])
      have ho := h.ord
      rw [he.1] at ho
      simp only [List.append_nil] at ho
      rw [taskPart_snoc, proj_snoc]
      simp [he.1, ← ho]
    · intro t2
      show TaskOK n t2 (st.trace ++ [_]) (setTask st.task t _ t2)
      by_cases e : t2 = t
      · subst e
        simp only [setTask, if_true, TaskOK, proj_snoc]
        refine ⟨hth, ?_⟩
        rw [← ht]
        simp [evsOf]
      · have := h.tasks t2
        simp only [setTask, if_neg e]
        refine TaskOK.congr_proj ?_ this
        rw [proj_snoc]
        simp [Ne.symm e]
    · intro t2
      show MemOK t2 (applyOp st.mem op) (setTask st.task t _ t2)
      by_cases e : t2 = t
      · subst e
        have := h.vals t2
        rw [hrun] at this
        simp only [setTask, if_true, MemOK] at this ⊢
        exact applyOp_pop (fun d2 val e2 _ => (hop d2 val e2).2) this
      · simp only [setTask, if_neg e]
        exact MemOK.congr_var (hmem _ (fun hh => e (Tk.var_inj hh))) (h.vals t2)
    · intro t2
      show setTask st.task t _ t2 = .absent ↔ _
      by_cases e : t2 = t
      · subst e
        have := h.gen t2
        rw [hrun] at this
        simpa [setTask] using this
      · simpa [setTask, e] using h.gen t2
    · intro hl
      have : st.pc.late = true := hl
      rw [he.2] at this; cases this
    · show MainOK (proj .main (st.trace ++ [_])) st.cont st.single (applyOp st.mem op .x)
        (applyOp st.mem op .e) st.pc
      rw [proj_snoc, hmem _ (Tk.var_ne_x t), hmem _ (Tk.var_ne_e t)]
      simpa using h.main
  · rename_i th hrun
    cases hs
    have he := h.early t (by rw [hrun]; intro k hk; cases hk)
    have ht := h.tasks t
    rw [hrun] at ht
    obtain ⟨hth, ht⟩ := ht
    refine ⟨h.ord, ?_, ?_, ?_, ?_, h.sing, h.code, h.main⟩
    · intro t2
      show TaskOK n t2 st.trace (setTask st.task t _ t2)
      by_cases e : t2 = t
      · subst e
        simp only [setTask, if_true, TaskOK]
        refine ⟨hth, ?_⟩
        rw [← ht]
        simp [evsOf]
      · simpa [setTask, e] using h.tasks t2
    · intro t2
      show MemOK t2 st.mem (setTask st.task t _ t2)
      by_cases e : t2 = t
      · subst e
        have := h.vals t2
        rw [hrun] at this
        simpa [setTask, MemOK] using this
      · simpa [setTask, e] using h.vals t2
    · intro t2
      show setTask st.task t _ t2 = .absent ↔ _
      by_cases e : t2 = t
      · subst e
        have := h.gen t2
        rw [hrun] at this
        simpa [setTask] using this
      · simpa [setTask, e] using h.gen t2
    · intro hl
      have : st.pc.late = true := hl
      rw [he.2] at this; cases this
  · cases hs


theorem addInt_10_20 : addInt 10 20 = 30 := by decide

theorem addInt_1_30 : addInt 1 30 = 31 := by decide

/-- The only stores among the events of `main` are `x = 30` and `e = 31`. -/
theorem main_write {s : Nat} {ev : Ev} (h : ev ∈ lineX s ++ lineE s ++ lineP)
    {d : Var} {val : Int} (hw : ev.op = .write d val) :
    (d = .x ∧ val = 30) ∨ (d = .e ∧ val = 31) := by
  simp only [lineX, lineE, lineP, evsOf, stmtOps, f1, f2, List.map_cons, List.map_append,
    List.map_nil, List.mem_append, List.mem_cons, List.cons_append, List.nil_append,
    List.not_mem_nil, or_false, addInt_10_20, addInt_1_30] at h
  rcases ev with ⟨th, w, op⟩
  simp only at hw
  subst hw
  simp only [Ev.mk.injEq, Op.write.injEq, reduceCtorEq, and_false, false_or, or_false] at h
  rcases h with h | h
  · left; exact ⟨h.2.2.1, h.2.2.2⟩
  · right; exact ⟨h.2.2.1, h.2.2.2⟩


/-- An operation taken from the pending statement of `main` is one of its events. -/
theorem cont_head_mem {p : List Ev} {th : Nat} {op : Op} {rest : List Op} {full : List Ev}
    (h : p ++ evsOf th .main (op :: rest) = full) : Ev.mk th .main op ∈ full := by
  rw [← h]
  exact List.mem_append_right _ (by simp [evsOf])

/-- The part of the invariant that does not depend on the control point survives an
event of `main` that stores, if at all, into `x` or `e`. -/
theorem emit_main_fields {n : Nat} {st : State} (h : Inv n st) (th : Nat) (op : Op)
    (hop : ∀ d val, op = .write d val → d = .x ∨ d = .e) :
    (st.trace ++ [Ev.mk th .main op] =
        taskPart (st.trace ++ [Ev.mk th .main op]) ++ proj .main (st.trace ++ [Ev.mk th .main op])) ∧
      (∀ t, TaskOK n t (st.trace ++ [Ev.mk th .main op]) (st.task t)) ∧
      (∀ t, MemOK t (applyOp st.mem op) (st.task t)) := by
  refine ⟨?_, ?_, ?_⟩
  · rw [taskPart_snoc, proj_snoc]
    simp only [if_true, ← List.append_assoc]
    rw [← h.ord]
  · intro t
    refine TaskOK.congr_proj ?_ (h.tasks t)
    rw [proj_snoc]
    simp
  · intro t
    refine MemOK.congr_var ?_ (h.vals t)
    apply applyOp_other
    intro d2 val e hh
    rcases hop d2 val e with h1 | h1
    · exact Tk.var_ne_x t (by rw [← h1, hh])
    · exact Tk.var_ne_e t (by rw [← h1, hh])

theorem Inv.val_done {n : Nat} {st : State} (h : Inv n st) (hl : st.pc.late = true) (t : Tk) :
    st.mem t.var = t.val := by
  obtain ⟨th, hth⟩ := h.late hl t
  have := h.vals t
  rw [hth] at this
  exact this

theorem inv_main {n : Nat} {st st2 : State} (h : Inv n st)
    (hs : step n st .main = some st2) : Inv n st2 := by
  have hm := h.main
  have hg := h.gen
  have hc := h.code
  cases hp : st.pc <;> simp only [step, hp] at hs <;> rw [hp] at hm hc <;>
    simp only [MainOK] at hm
  case fork => cases hs
  case halted => cases hs
  case spawnA =>
    obtain ⟨-, rfl⟩ := ite_some_eq hs
    refine ⟨h.ord, ?_, ?_, ?_, ?_, ?_, hc, hm⟩
    · intro t
      by_cases e : t = .A
      · subst e
        have h1 := h.tasks .A
        rw [(hg .A).mpr (by rw [hp]; rfl)] at h1
        simpa [setTask, TaskOK] using h1
      · simpa [setTask, e] using h.tasks t
    · intro t
      by_cases e : t = .A
      · subst e; simp [setTask, MemOK]
      · simpa [setTask, e] using h.vals t
    · intro t
      have := hg t
      rw [hp] at this
      cases t <;> simpa [setTask, Pc.spawned] using this
    · simp [Pc.late]
    · intro _; exact h.sing (by rw [hp]; simp)
  case spawnB =>
    obtain ⟨-, rfl⟩ := ite_some_eq hs
    refine ⟨h.ord, ?_, ?_, ?_, ?_, ?_, hc, hm⟩
    · intro t
      by_cases e : t = .B
      · subst e
        have h1 := h.tasks .B
        rw [(hg .B).mpr (by rw [hp]; rfl)] at h1
        simpa [setTask, TaskOK] using h1
      · simpa [setTask, e] using h.tasks t
    · intro t
      by_cases e : t = .B
      · subst e; simp [setTask, MemOK]
      · simpa [setTask, e] using h.vals t
    · intro t
      have := hg t
      rw [hp] at this
      cases t <;> simpa [setTask, Pc.spawned] using this
    · simp [Pc.late]
    · intro _; exact h.sing (by rw [hp]; simp)
  case spawnC =>
    obtain ⟨-, rfl⟩ := ite_some_eq hs
    refine ⟨h.ord, ?_, ?_, ?_, ?_, ?_, hc, hm⟩
    · intro t
      by_cases e : t = .C
      · subst e
        have h1 := h.tasks .C
        rw [(hg .C).mpr (by rw [hp]; rfl)] at h1
        simpa [setTask, TaskOK] using h1
      · simpa [setTask, e] using h.tasks t
    · intro t
      by_cases e : t = .C
      · subst e; simp [setTask, MemOK]
      · simpa [setTask, e] using h.vals t
    · intro t
      have := hg t
      rw [hp] at this
      cases t <;> simpa [setTask, Pc.spawned] using this
    · simp [Pc.late]
    · intro _; exact h.sing (by rw [hp]; simp)
  case taskwait =>
    split at hs
    · rename_i hd
      cases hs
      refine ⟨h.ord, h.tasks, h.vals, ?_, ?_, ?_, hc, hm⟩
      · intro t
        have := hg t
        rw [hp] at this
        simpa [Pc.spawned] using this
      · intro _; exact (allDone_iff st).mp hd.1
      · intro _; exact h.sing (by rw [hp]; simp)
    · cases hs
  case callF1 =>
    cases hs
    have hl : st.pc.late = true := by rw [hp]; rfl
    have hv := h.val_done hl .B
    have hw := h.val_done hl .C
    simp only [Tk.var, Tk.val] at hv hw
    refine ⟨h.ord, h.tasks, h.vals, ?_, ?_, ?_, hc, ?_⟩
    · intro t
      have := hg t
      rw [hp] at this
      simpa [Pc.spawned] using this
    · intro _; exact h.late hl
    · intro _; exact h.sing (by rw [hp]; simp)
    · simp only [MainOK, hm, hv, hw, List.nil_append, lineX, true_and]
      right
      simp [stmtOps, f1, addInt_10_20]
  case callF2 =>
    cases hs
    have hl : st.pc.late = true := by rw [hp]; rfl
    have hy := h.val_done hl .A
    simp only [Tk.var, Tk.val] at hy
    refine ⟨h.ord, h.tasks, h.vals, ?_, ?_, ?_, hc, ?_⟩
    · intro t
      have := hg t
      rw [hp] at this
      simpa [Pc.spawned] using this
    · intro _; exact h.late hl
    · intro _; exact h.sing (by rw [hp]; simp)
    · simp only [MainOK, hm.1, hm.2, hy, lineE, true_and]
      right
      simp [stmtOps, f2, addInt_1_30]
  case join =>
    split at hs
    · cases hs
      have hl : st.pc.late = true := by rw [hp]; rfl
      refine ⟨h.ord, h.tasks, h.vals, ?_, ?_, ?_, hc, hm⟩
      · intro t
        have := hg t
        rw [hp] at this
        simpa [Pc.spawned] using this
      · intro _; exact h.late hl
      · intro _; exact h.sing (by rw [hp]; simp)
    · cases hs
  case print =>
    cases hs
    have hl : st.pc.late = true := by rw [hp]; rfl
    refine ⟨h.ord, h.tasks, h.vals, ?_, ?_, ?_, hc, ?_⟩
    · intro t
      have := hg t
      rw [hp] at this
      simpa [Pc.spawned] using this
    · intro _; exact h.late hl
    · intro _; exact h.sing (by rw [hp]; simp)
    · simp only [MainOK, hm.1, hm.2, lineP]
  case ret =>
    cases hs
    have hl : st.pc.late = true := by rw [hp]; rfl
    refine ⟨h.ord, h.tasks, h.vals, ?_, ?_, ?_, ?_, hm⟩
    · intro t
      have := hg t
      rw [hp] at this
      simpa [Pc.spawned] using this
    · intro _; exact h.late hl
    · intro _; exact h.sing (by rw [hp]; simp)
    · simp
  case inF1 =>
    have hl : st.pc.late = true := by rw [hp]; rfl
    have hsp : ∀ t, st.task t = .absent ↔ Pc.spawned .inF1 t = false := by
      intro t; have := hg t; rw [hp] at this; exact this
    split at hs
    · rename_i op rest hcont
      cases hs
      rw [hcont] at hm
      have hmem : Ev.mk st.single .main op ∈ lineX st.single ++ lineE st.single ++ lineP :=
        List.mem_append_left _ (List.mem_append_left _ (cont_head_mem hm.1))
      have hop : ∀ d val, op = .write d val → (d = .x ∧ val = 30) ∨ (d = .e ∧ val = 31) :=
        fun d val e => main_write hmem (by simp [e])
      obtain ⟨h1, h2, h3⟩ := emit_main_fields h st.single op
        (fun d val e => (hop d val e).imp And.left And.left)
      refine ⟨h1, h2, h3, h.gen, h.late, h.sing, h.code, ?_⟩
      · show MainOK (proj .main (st.trace ++ [_])) rest st.single (applyOp st.mem op .x)
          (applyOp st.mem op .e) st.pc
        rw [hp, proj_snoc]
        simp only [MainOK, if_true, List.append_assoc]
        refine ⟨by simpa [evsOf] using hm.1, ?_⟩
        refine applyOp_pop ?_ hm.2
        intro d2 val e hd
        rcases hop d2 val e with h4 | h4
        · exact h4.2
        · rw [hd] at h4; cases h4.1
    · rename_i hcont
      cases hs
      rw [hcont] at hm
      refine ⟨h.ord, h.tasks, h.vals, ?_, ?_, ?_, hc, ?_⟩
      · intro t; simpa [Pc.spawned] using hsp t
      · intro _; exact h.late hl
      · intro _; exact h.sing (by rw [hp]; simp)
      · simpa [MainOK, evsOf] using hm
  case inF2 =>
    have hl : st.pc.late = true := by rw [hp]; rfl
    have hsp : ∀ t, st.task t = .absent ↔ Pc.spawned .inF2 t = false := by
      intro t; have := hg t; rw [hp] at this; exact this
    split at hs
    · rename_i op rest hcont
      cases hs
      rw [hcont] at hm
      have hmem : Ev.mk st.single .main op ∈ lineX st.single ++ lineE st.single ++ lineP :=
        List.mem_append_left _ (cont_head_mem hm.1)
      have hop : ∀ d val, op = .write d val → (d = .x ∧ val = 30) ∨ (d = .e ∧ val = 31) :=
        fun d val e => main_write hmem (by simp [e])
      obtain ⟨h1, h2, h3⟩ := emit_main_fields h st.single op
        (fun d val e => (hop d val e).imp And.left And.left)
      refine ⟨h1, h2, h3, h.gen, h.late, h.sing, h.code, ?_⟩
      · show MainOK (proj .main (st.trace ++ [_])) rest st.single (applyOp st.mem op .x)
          (applyOp st.mem op .e) st.pc
        rw [hp, proj_snoc]
        simp only [MainOK, if_true, List.append_assoc]
        refine ⟨by simpa [evsOf] using hm.1, ?_⟩
        refine applyOp_pop ?_ hm.2
        intro d2 val e hd
        rcases hop d2 val e with h4 | h4
        · rw [hd] at h4; cases h4.1
        · exact h4.2
    · rename_i hcont
      cases hs
      rw [hcont] at hm
      refine ⟨h.ord, h.tasks, h.vals, ?_, ?_, ?_, hc, ?_⟩
      · intro t; simpa [Pc.spawned] using hsp t
      · intro _; exact h.late hl
      · intro _; exact h.sing (by rw [hp]; simp)
      · simpa [MainOK, evsOf] using hm
  case inPrint =>
    have hl : st.pc.late = true := by rw [hp]; rfl
    have hsp : ∀ t, st.task t = .absent ↔ Pc.spawned .inPrint t = false := by
      intro t; have := hg t; rw [hp] at this; exact this
    split at hs
    · rename_i op rest hcont
      cases hs
      rw [hcont] at hm
      have hmem : Ev.mk 0 .main op ∈ lineX st.single ++ lineE st.single ++ lineP :=
        cont_head_mem hm
      have hop : ∀ d val, op = .write d val → (d = .x ∧ val = 30) ∨ (d = .e ∧ val = 31) :=
        fun d val e => main_write hmem (by simp [e])
      obtain ⟨h1, h2, h3⟩ := emit_main_fields h 0 op
        (fun d val e => (hop d val e).imp And.left And.left)
      refine ⟨h1, h2, h3, h.gen, h.late, h.sing, h.code, ?_⟩
      · show MainOK (proj .main (st.trace ++ [_])) rest st.single (applyOp st.mem op .x)
          (applyOp st.mem op .e) st.pc
        rw [hp, proj_snoc]
        simp only [MainOK, if_true, List.append_assoc]
        simpa [evsOf] using hm
    · rename_i hcont
      cases hs
      rw [hcont] at hm
      refine ⟨h.ord, h.tasks, h.vals, ?_, ?_, ?_, hc, ?_⟩
      · intro t; simpa [Pc.spawned] using hsp t
      · intro _; exact h.late hl
      · intro _; exact h.sing (by rw [hp]; simp)
      · simpa [MainOK, evsOf] using hm

theorem inv_step {n : Nat} {st st2 : State} {c : Choice} (h : Inv n st)
    (hs : step n st c = some st2) : Inv n st2 := by
  cases c
  · exact inv_single h hs
  · exact inv_start h hs
  · exact inv_run h hs
  · exact inv_main h hs

theorem inv_exec {n : Nat} : ∀ (sched : List Choice) {st st2 : State}, Inv n st →
    exec n sched st = some st2 → Inv n st2
  | [], st, st2, h, hs => by
      simp only [exec, Option.some.injEq] at hs
      exact hs ▸ h
  | c :: cs, st, st2, h, hs => by
      simp only [exec] at hs
      cases hc : step n st c with
      | none => rw [hc] at hs; cases hs
      | some st1 =>
          rw [hc] at hs
          exact inv_exec cs (inv_step h hc) hs

theorem inv_reachable {n : Nat} {sched : List Choice} {x0 e0 : Int} {st : State}
    (h : main n sched x0 e0 = some st) : Inv n st :=
  inv_exec sched (inv_init n x0 e0) h

theorem ops_length (t : Tk) (th : Nat) : (t.ops th).length = 9 := by
  cases t <;> rfl

theorem fuel_setTask_le (f : Tk → TaskSt) (t : Tk) (s : TaskSt) (k : Nat)
    (h : s.fuel + k ≤ (f t).fuel) :
    (setTask f t s .A).fuel + (setTask f t s .B).fuel + (setTask f t s .C).fuel + k ≤
      (f .A).fuel + (f .B).fuel + (f .C).fuel := by
  cases t <;> simp [setTask] at h ⊢ <;> omega

theorem fuel_setTask_ready (f : Tk → TaskSt) (t : Tk) :
    (setTask f t .ready .A).fuel + (setTask f t .ready .B).fuel + (setTask f t .ready .C).fuel ≤
      (f .A).fuel + (f .B).fuel + (f .C).fuel + 11 := by
  cases t <;> simp [setTask, TaskSt.fuel] <;> omega

/-- Every step consumes fuel. -/
theorem step_fuel {n : Nat} {st st2 : State} {c : Choice}
    (hs : step n st c = some st2) : st2.fuel < st.fuel := by
  cases c with
  | single th =>
      simp only [step] at hs
      split at hs
      · rename_i hc
        cases hs
        simp [State.fuel, hc.1, Pc.rank]
      · cases hs
  | start t th =>
      simp only [step] at hs
      split at hs
      · rename_i hc
        cases hs
        have := fuel_setTask_le st.task t (.running th (t.ops th)) 1
          (by rw [hc.2.1]; simp [TaskSt.fuel, ops_length])
        simp only [State.fuel]
        omega
      · cases hs
  | run t =>
      simp only [step] at hs
      split at hs
      · rename_i th op rest hrun
        cases hs
        have := fuel_setTask_le st.task t (.running th rest) 1
          (by rw [hrun]; simp [TaskSt.fuel])
        simp only [State.fuel, State.emit]
        omega
      · rename_i th hrun
        cases hs
        have := fuel_setTask_le st.task t (.done th) 1
          (by rw [hrun]; simp [TaskSt.fuel])
        simp only [State.fuel]
        omega
      · cases hs
  | main =>
      cases hp : st.pc <;> simp only [step, hp] at hs
      case fork => cases hs
      case halted => cases hs
      case spawnA =>
        obtain ⟨-, rfl⟩ := ite_some_eq hs
        have := fuel_setTask_ready st.task .A
        simp only [State.fuel, hp, Pc.rank]; omega
      case spawnB =>
        obtain ⟨-, rfl⟩ := ite_some_eq hs
        have := fuel_setTask_ready st.task .B
        simp only [State.fuel, hp, Pc.rank]; omega
      case spawnC =>
        obtain ⟨-, rfl⟩ := ite_some_eq hs
        have := fuel_setTask_ready st.task .C
        simp only [State.fuel, hp, Pc.rank]; omega
      case taskwait =>
        split at hs
        · cases hs; simp only [State.fuel, hp, Pc.rank]; omega
        · cases hs
      case join =>
        split at hs
        · cases hs; simp only [State.fuel, hp, Pc.rank]; omega
        · cases hs
      case callF1 =>
        cases hs
        simp only [State.fuel, hp, Pc.rank, stmtOps, f1, List.length_cons, List.length_append,
          List.length_map, List.length_nil]
        omega
      case callF2 =>
        cases hs
        simp only [State.fuel, hp, Pc.rank, stmtOps, f2, List.length_cons, List.length_append,
          List.length_map, List.length_nil]
        omega
      case print =>
        cases hs
        simp only [State.fuel, hp, Pc.rank, List.length_cons, List.length_nil]
        omega
      case ret =>
        cases hs
        simp only [State.fuel, hp, Pc.rank]; omega
      case inF1 =>
        split at hs
        · rename_i op rest hcont
          cases hs
          simp only [State.fuel, State.emit, hp, hcont, List.length_cons]; omega
        · cases hs
          simp only [State.fuel, hp, Pc.rank]; omega
      case inF2 =>
        split at hs
        · rename_i op rest hcont
          cases hs
          simp only [State.fuel, State.emit, hp, hcont, List.length_cons]; omega
        · cases hs
          simp only [State.fuel, hp, Pc.rank]; omega
      case inPrint =>
        split at hs
        · rename_i op rest hcont
          cases hs
          simp only [State.fuel, State.emit, hp, hcont, List.length_cons]; omega
        · cases hs
          simp only [State.fuel, hp, Pc.rank]; omega

/-- A schedule cannot be longer than the fuel of the state it starts from. -/
theorem exec_fuel {n : Nat} : ∀ (sched : List Choice) {st st2 : State},
    exec n sched st = some st2 → sched.length + st2.fuel ≤ st.fuel
  | [], st, st2, hs => by
      simp only [exec, Option.some.injEq] at hs
      subst hs; simp
  | c :: cs, st, st2, hs => by
      simp only [exec] at hs
      cases hc : step n st c with
      | none => rw [hc] at hs; cases hs
      | some st1 =>
          rw [hc] at hs
          have h1 := exec_fuel cs hs
          have h2 := step_fuel hc
          simp only [List.length_cons]
          omega

theorem exec_append {n : Nat} : ∀ (s1 s2 : List Choice) (st : State),
    exec n (s1 ++ s2) st = (exec n s1 st).bind (exec n s2)
  | [], s2, st => by simp [exec]
  | c :: cs, s2, st => by
      simp only [List.cons_append, exec]
      cases step n st c with
      | none => rfl
      | some st1 => simp only [Option.bind]; exact exec_append cs s2 st1


theorem run_enabled {n : Nat} {st : State} {t : Tk} {th : Nat} {rest : List Op}
    (h : st.task t = .running th rest) : (step n st (.run t)).isSome = true := by
  cases rest with
  | nil => simp only [step, h, Option.isSome]
  | cons op r => simp only [step, h, Option.isSome]

theorem busy_false {st : State} (h : ∀ t th rest, st.task t ≠ .running th rest) (th : Nat) :
    st.busy th = false := by
  have key : ∀ t, (st.task t).onThread th = false := by
    intro t
    cases ht : st.task t with
    | running th2 rest => exact absurd ht (h t th2 rest)
    | _ => rfl
  simp [State.busy, key]

theorem busy_running {st : State} {th : Nat} (h : st.busy th = true) :
    ∃ t rest, st.task t = .running th rest := by
  have key : ∀ t, (st.task t).onThread th = true → ∃ rest, st.task t = .running th rest := by
    intro t ht
    cases hs : st.task t with
    | running th2 rest =>
        rw [hs] at ht
        simp only [TaskSt.onThread, beq_iff_eq] at ht
        exact ⟨rest, by rw [ht]⟩
    | absent => rw [hs] at ht; cases ht
    | ready => rw [hs] at ht; cases ht
    | done k => rw [hs] at ht; cases ht
  simp only [State.busy, Bool.or_eq_true] at h
  rcases h with (h | h) | h
  · exact ⟨.A, key .A h⟩
  · exact ⟨.B, key .B h⟩
  · exact ⟨.C, key .C h⟩

/-- The thread of the `single` block can go on, or the task it is in can. -/
theorem spawn_enabled {n : Nat} {st : State} {st2 : State}
    (h : step n st .main = if st.busy st.single = false then some st2 else none) :
    ∃ c, (step n st c).isSome = true := by
  by_cases hb : st.busy st.single = false
  · exact ⟨.main, by rw [h, if_pos hb]; rfl⟩
  · obtain ⟨t, rest, ht⟩ := busy_running (by simpa using hb)
    exact ⟨_, run_enabled ht⟩

/-- No deadlock: in every state the invariant allows, short of the end of `main`,
some step is enabled. -/
theorem progress {n : Nat} {st : State} (hn : 0 < n) (h : Inv n st) (hp : st.pc ≠ .halted) :
    ∃ c, (step n st c).isSome = true := by
  cases hpc : st.pc
  case halted => exact absurd hpc hp
  case fork => exact ⟨.single 0, by simp only [step]; rw [if_pos ⟨hpc, hn⟩]; rfl⟩
  case spawnA => exact spawn_enabled (by simp only [step, hpc]; rfl)
  case spawnB => exact spawn_enabled (by simp only [step, hpc]; rfl)
  case spawnC => exact spawn_enabled (by simp only [step, hpc]; rfl)
  case taskwait =>
    by_cases hrun : ∃ t th rest, st.task t = .running th rest
    · obtain ⟨t, th, rest, ht⟩ := hrun
      exact ⟨_, run_enabled ht⟩
    · have hno : ∀ t th rest, st.task t ≠ .running th rest :=
        fun t th rest e => hrun ⟨t, th, rest, e⟩
      have hb := busy_false hno st.single
      by_cases hd : st.allDone = true
      · exact ⟨.main, by simp only [step, hpc]; rw [if_pos ⟨hd, hb⟩]; rfl⟩
      · have : ∃ t, st.task t = .ready := by
          by_contra hne
          apply hd
          rw [allDone_iff]
          intro t
          have hg := h.gen t
          rw [hpc] at hg
          cases ht : st.task t with
          | absent => rw [ht] at hg; simp [Pc.spawned] at hg
          | ready => exact absurd ⟨t, ht⟩ hne
          | running th rest => exact absurd ht (hno t th rest)
          | done th => exact ⟨th, rfl⟩
        obtain ⟨t, ht⟩ := this
        refine ⟨.start t st.single, ?_⟩
        simp only [step]
        rw [if_pos ⟨h.sing (by rw [hpc]; simp), ht, hb, fun _ => by rw [hpc]; rfl⟩]
        rfl
  case join =>
    have hd : st.allDone = true := (allDone_iff st).mpr (h.late (by rw [hpc]; rfl))
    exact ⟨.main, by simp only [step, hpc]; rw [if_pos hd]; rfl⟩
  case inF1 =>
    cases hcont : st.cont with
    | nil => exact ⟨.main, by simp only [step, hpc, hcont, Option.isSome]⟩
    | cons op r => exact ⟨.main, by simp only [step, hpc, hcont, Option.isSome]⟩
  case inF2 =>
    cases hcont : st.cont with
    | nil => exact ⟨.main, by simp only [step, hpc, hcont, Option.isSome]⟩
    | cons op r => exact ⟨.main, by simp only [step, hpc, hcont, Option.isSome]⟩
  case inPrint =>
    cases hcont : st.cont with
    | nil => exact ⟨.main, by simp only [step, hpc, hcont, Option.isSome]⟩
    | cons op r => exact ⟨.main, by simp only [step, hpc, hcont, Option.isSome]⟩
  all_goals exact ⟨.main, by simp only [step, hpc, Option.isSome]⟩

/-- From every state the invariant allows, some schedule runs `main` to its end. -/
theorem exists_completion {n : Nat} (hn : 0 < n) : ∀ (k : Nat) (st : State), st.fuel ≤ k →
    Inv n st → ∃ sched st2, exec n sched st = some st2 ∧ st2.pc = .halted
  | 0, st, hk, h => by
      by_cases hp : st.pc = .halted
      · exact ⟨[], st, rfl, hp⟩
      · obtain ⟨c, hc⟩ := progress hn h hp
        obtain ⟨st1, hc⟩ := Option.isSome_iff_exists.mp hc
        have := step_fuel hc
        omega
  | k + 1, st, hk, h => by
      by_cases hp : st.pc = .halted
      · exact ⟨[], st, rfl, hp⟩
      · obtain ⟨c, hc⟩ := progress hn h hp
        obtain ⟨st1, hc⟩ := Option.isSome_iff_exists.mp hc
        have hf := step_fuel hc
        obtain ⟨sched, st2, h2, h3⟩ := exists_completion hn k st1 (by omega) (inv_step h hc)
        exact ⟨c :: sched, st2, by simp only [exec, hc, Option.bind]; exact h2, h3⟩

/-! ## The shape of the trace -/

theorem split_unique {α : Type} {p : α → Prop} {a b c d : List α} {x y : α}
    (h : a ++ x :: b = c ++ y :: d) (hx : p x) (hc : ∀ z ∈ c, ¬ p z) (hd : ∀ z ∈ d, ¬ p z) :
    a = c ∧ x = y ∧ b = d := by
  rcases List.append_eq_append_iff.mp h with ⟨k, hk1, hk2⟩ | ⟨k, hk1, hk2⟩
  · cases k with
    | nil =>
        simp only [List.nil_append, List.cons.injEq] at hk2
        simp only [List.append_nil] at hk1
        exact ⟨hk1.symm, hk2.1, hk2.2⟩
    | cons z k =>
        simp only [List.cons_append, List.cons.injEq] at hk2
        exact absurd hx (hc x (by rw [hk1]; simp [hk2.1]))
  · cases k with
    | nil =>
        simp only [List.nil_append, List.cons.injEq] at hk2
        simp only [List.append_nil] at hk1
        exact ⟨hk1, hk2.1.symm, hk2.2.symm⟩
    | cons z k =>
        simp only [List.cons_append, List.cons.injEq] at hk2
        exact absurd hx (hd x (by rw [hk2.2]; simp))

/-- The events of `main` recorded so far are an initial part of `mainEvents`. -/
theorem Inv.main_rest {n : Nat} {st : State} (h : Inv n st) :
    ∃ r, proj .main st.trace ++ r = mainEvents st.single ∧ (st.pc = .halted → r = []) := by
  have hm := h.main
  unfold mainEvents
  cases hp : st.pc <;> rw [hp] at hm <;> simp only [MainOK] at hm
  case inF1 => exact ⟨evsOf st.single .main st.cont ++ lineE st.single ++ lineP,
    by rw [← hm.1]; simp, by simp⟩
  case callF2 => exact ⟨lineE st.single ++ lineP, by rw [hm.1]; simp, by simp⟩
  case inF2 => exact ⟨evsOf st.single .main st.cont ++ lineP, by rw [← hm.1]; simp, by simp⟩
  case join => exact ⟨lineP, by rw [hm.1], by simp⟩
  case print => exact ⟨lineP, by rw [hm.1], by simp⟩
  case inPrint => exact ⟨evsOf 0 .main st.cont, by rw [← hm], by simp⟩
  case ret => exact ⟨[], by rw [hm]; simp, by simp⟩
  case halted => exact ⟨[], by rw [hm]; simp, by simp⟩
  all_goals exact ⟨_, by rw [hm]; rfl, by simp⟩

/-- The trace is the work of the tasks followed by an initial part of `mainEvents`. -/
theorem Inv.full {n : Nat} {st : State} (h : Inv n st) :
    ∃ r, st.trace ++ r = taskPart st.trace ++ mainEvents st.single ∧
      (st.pc = .halted → r = []) := by
  obtain ⟨r, h1, h2⟩ := h.main_rest
  refine ⟨r, ?_, h2⟩
  rw [← h1, ← List.append_assoc, ← h.ord]

theorem Inv.halted_trace {n : Nat} {st : State} (h : Inv n st) (hp : st.pc = .halted) :
    st.trace = taskPart st.trace ++ mainEvents st.single := by
  obtain ⟨r, h1, h2⟩ := h.full
  rw [h2 hp, List.append_nil] at h1
  exact h1

theorem mem_proj {w : Who} {tr : List Ev} {ev : Ev} : ev ∈ proj w tr ↔ ev ∈ tr ∧ ev.who = w := by
  simp [proj]

theorem mem_taskPart {tr : List Ev} {ev : Ev} : ev ∈ taskPart tr ↔ ev ∈ tr ∧ ev.who ≠ .main := by
  simp [taskPart]

/-- An event of task `t` in the trace is one of the events of the body of `t`, run by a
thread of the team. -/
theorem Inv.task_ev {n : Nat} {st : State} (h : Inv n st) {ev : Ev} {t : Tk}
    (he : ev ∈ st.trace) (hw : ev.who = .task t) : ∃ th, th < n ∧ ev ∈ taskEvents t th := by
  have hmem : ev ∈ proj (.task t) st.trace := mem_proj.mpr ⟨he, hw⟩
  have ht := h.tasks t
  cases hs : st.task t with
  | absent => rw [hs] at ht; simp only [TaskOK] at ht; rw [ht] at hmem; cases hmem
  | ready => rw [hs] at ht; simp only [TaskOK] at ht; rw [ht] at hmem; cases hmem
  | running th rest =>
      rw [hs] at ht
      exact ⟨th, ht.1, by unfold taskEvents; rw [← ht.2]; exact List.mem_append_left _ hmem⟩
  | done th =>
      rw [hs] at ht
      exact ⟨th, ht.1, by unfold taskEvents; rw [← ht.2]; exact hmem⟩

/-- After the `taskwait`, the trace holds the complete body of every task, each run by
one thread of the team. -/
theorem Inv.late_tasks {n : Nat} {st : State} (h : Inv n st) (hl : st.pc.late = true) (t : Tk) :
    ∃ th, th < n ∧ st.task t = .done th ∧ proj (.task t) st.trace = taskEvents t th := by
  obtain ⟨th, hth⟩ := h.late hl t
  have ht := h.tasks t
  rw [hth] at ht
  exact ⟨th, ht.1, hth, ht.2⟩

/-- An event of `main` in the trace means the `taskwait` has returned. -/
theorem Inv.late_of_main {n : Nat} {st : State} (h : Inv n st) {ev : Ev}
    (he : ev ∈ st.trace) (hw : ev.who = .main) : st.pc.late = true := by
  have hmem : ev ∈ proj .main st.trace := mem_proj.mpr ⟨he, hw⟩
  have hm := h.main
  cases hp : st.pc <;> rw [hp] at hm <;> simp only [MainOK] at hm <;>
    first | rfl | (rw [hm] at hmem; cases hmem)

theorem proj_cons (w : Who) (ev : Ev) (tl : List Ev) :
    proj w (ev :: tl) = if ev.who = w then ev :: proj w tl else proj w tl := by
  unfold proj
  by_cases h : ev.who = w <;> simp [List.filter_cons, h]

theorem taskPart_cons (ev : Ev) (tl : List Ev) :
    taskPart (ev :: tl) = if ev.who = .main then taskPart tl else ev :: taskPart tl := by
  unfold taskPart
  by_cases h : ev.who = .main <;> simp [List.filter_cons, h]

/-- The work of the tasks is a shuffle of the three projections. -/
theorem taskPart_perm (tr : List Ev) :
    (taskPart tr).Perm (proj (.task .A) tr ++ (proj (.task .B) tr ++ proj (.task .C) tr)) := by
  induction tr with
  | nil => exact List.Perm.refl _
  | cons ev tl ih =>
      rcases ev with ⟨th, w, op⟩
      rw [taskPart_cons, proj_cons, proj_cons, proj_cons]
      cases w with
      | main => simpa using ih
      | task t =>
          cases t
          · simpa using ih
          · simp only [reduceCtorEq, if_false, Who.task.injEq, if_true]
            exact (List.Perm.cons _ ih).trans List.perm_middle.symm
          · simp only [reduceCtorEq, if_false, Who.task.injEq, if_true]
            refine (List.Perm.cons _ ih).trans ?_
            rw [← List.append_assoc, ← List.append_assoc]
            exact List.perm_middle.symm

/-! ## Output lines and the final value -/

theorem linesAux_endl (cur a b : List Tok) :
    linesAux cur (a ++ .endl :: b) = linesAux cur (a ++ [.endl]) ++ linesAux [] b := by
  induction a generalizing cur with
  | nil => simp [linesAux]
  | cons t a ih =>
      cases t with
      | endl => simp [linesAux, ih]
      | str s => simp [linesAux, ih]
      | int i => simp [linesAux, ih]

theorem linesOf_endl (a b : List Tok) :
    linesOf (a ++ .endl :: b) = linesOf (a ++ [.endl]) ++ linesOf b :=
  linesAux_endl [] a b

theorem linesAux_length (cur a : List Tok) :
    (linesAux cur (a ++ [.endl])).length = a.count .endl + 1 := by
  induction a generalizing cur with
  | nil => simp [linesAux]
  | cons t a ih =>
      cases t with
      | endl => simp [linesAux, ih]
      | str s => simp [linesAux, ih]
      | int i => simp [linesAux, ih]

theorem outputOf_append (a b : List Ev) : outputOf (a ++ b) = outputOf a ++ outputOf b := by
  simp [outputOf]

theorem outputOf_mainEvents (s : Nat) :
    outputOf (mainEvents s) =
      [.str "Processing f1, th=", .int s, .endl, .str "Processing f2, th=", .int s, .endl,
       .str "e= ", .int 31, .endl] := by
  simp [mainEvents, lineX, lineE, lineP, evsOf, stmtOps, f1, f2, outputOf, Ev.tok?]

theorem outputOf_filter (l : List Ev) : outputOf (l.filter Ev.hasTok) = outputOf l := by
  induction l with
  | nil => rfl
  | cons ev l ih =>
      cases h : ev.tok? with
      | none => simp [List.filter_cons, Ev.hasTok, h, outputOf] at ih ⊢; exact ih
      | some t => simp [List.filter_cons, Ev.hasTok, h, outputOf] at ih ⊢; exact ih

theorem taskEvents_tokens (t : Tk) (th : Nat) :
    ∃ i, (taskEvents t th).filter Ev.hasTok = i ++ [⟨th, .task t, .act (.put .endl)⟩] := by
  cases t
  · exact ⟨[⟨th, .task .A, .act (.put (.str "Processing A, th="))⟩,
      ⟨th, .task .A, .act (.put (.int th))⟩, ⟨th, .task .A, .act (.put .endl)⟩,
      ⟨th, .task .A, .act (.put (.str "A Done"))⟩], rfl⟩
  · exact ⟨[⟨th, .task .B, .act (.put (.str "Processing B, th="))⟩,
      ⟨th, .task .B, .act (.put (.int th))⟩, ⟨th, .task .B, .act (.put .endl)⟩,
      ⟨th, .task .B, .act (.put (.str "B Done"))⟩], rfl⟩
  · exact ⟨[⟨th, .task .C, .act (.put (.str "Processing C, th="))⟩,
      ⟨th, .task .C, .act (.put (.int th))⟩, ⟨th, .task .C, .act (.put .endl)⟩,
      ⟨th, .task .C, .act (.put (.str "C Done"))⟩], rfl⟩

theorem proj_filter (w : Who) (p : Ev → Bool) (l : List Ev) :
    proj w (l.filter p) = (proj w l).filter p := by
  simp only [proj, List.filter_filter]
  congr 1
  funext ev
  exact Bool.and_comm _ _

theorem proj_taskPart (t : Tk) (l : List Ev) : proj (.task t) (taskPart l) = proj (.task t) l := by
  simp only [proj, taskPart, List.filter_filter]
  congr 1
  funext ev
  cases h : ev.who <;> simp

/-- After the `taskwait`, the output of the tasks ends with an `endl`. -/
theorem Inv.late_output {n : Nat} {st : State} (h : Inv n st) (hl : st.pc.late = true) :
    ∃ o, outputOf (taskPart st.trace) = o ++ [.endl] := by
  have hq : ∀ t, ∃ th i, proj (.task t) ((taskPart st.trace).filter Ev.hasTok) =
      i ++ [⟨th, .task t, .act (.put .endl)⟩] := by
    intro t
    obtain ⟨th, -, -, hp⟩ := h.late_tasks hl t
    obtain ⟨i, hi⟩ := taskEvents_tokens t th
    exact ⟨th, i, by rw [proj_filter, proj_taskPart, hp, hi]⟩
  have hw : ∀ ev ∈ (taskPart st.trace).filter Ev.hasTok, ev.who ≠ .main := by
    intro ev he
    exact (mem_taskPart.mp (List.mem_filter.mp he).1).2
  rw [← outputOf_filter]
  generalize (taskPart st.trace).filter Ev.hasTok = tq at hq hw
  rcases List.eq_nil_or_concat tq with hnil | ⟨q, ev, hcat⟩
  · obtain ⟨th, i, hi⟩ := hq .A
    rw [hnil] at hi
    simp [proj] at hi
  · rw [List.concat_eq_append] at hcat
    have hev := hw ev (by rw [hcat]; simp)
    cases hwho : ev.who with
    | main => exact absurd hwho hev
    | task t =>
        obtain ⟨th, i, hi⟩ := hq t
        rw [hcat, proj_snoc, if_pos hwho] at hi
        have := (List.append_inj' hi rfl).2
        simp only [List.cons.injEq, and_true] at this
        refine ⟨outputOf q, ?_⟩
        rw [hcat, outputOf_append, this]
        rfl


theorem eq_some_getD {α : Type} {o : Option α} (d : α) (h : o.isSome = true) :
    o = some (o.getD d) := by
  cases o with
  | none => cases h
  | some a => rfl

theorem demo_run : main 2 demoSchedule 5 7 = some demoFinal :=
  eq_some_getD _ (by decide)

/-- The output of a complete run: the output of the tasks, closed by an `endl`, then the
three lines of `main`. -/
theorem Inv.halted_output {n : Nat} {st : State} (h : Inv n st) (hp : st.pc = .halted) :
    ∃ o, outputOf (taskPart st.trace) = o ++ [.endl] ∧
      st.output = o ++ .endl :: [.str "Processing f1, th=", .int st.single, .endl,
        .str "Processing f2, th=", .int st.single, .endl, .str "e= ", .int 31, .endl] ∧
      linesOf st.output = linesOf (o ++ [.endl]) ++
        [[.str "Processing f1, th=", .int st.single],
         [.str "Processing f2, th=", .int st.single], [.str "e= ", .int 31]] := by
  have hl : st.pc.late = true := by rw [hp]; rfl
  obtain ⟨o, ho⟩ := h.late_output hl
  have hout : st.output = o ++ .endl :: [.str "Processing f1, th=", .int st.single, .endl,
        .str "Processing f2, th=", .int st.single, .endl, .str "e= ", .int 31, .endl] := by
    unfold State.output
    rw [h.halted_trace hp, outputOf_append, ho, outputOf_mainEvents]
    simp
  refine ⟨o, ho, hout, ?_⟩
  rw [hout, linesOf_endl]
  rfl

/-- C1. For every pool size `n ≥ 1` and every schedule, a run of `main` that has reached
its end has `e= 31` as the last line of its output and exit code 0; before the end some
step is always enabled, the exit code is not yet set, no schedule is longer than 192
steps, and every run can be continued to the end. -/
theorem main_prints_31 (n : Nat) (hn : 1 ≤ n) (x0 e0 : Int) (sched : List Choice) (st : State)
    (h : main n sched x0 e0 = some st) :
    (st.pc = .halted →
        (linesOf st.output).getLast? = some [.str "e= ", .int 31] ∧
        renderLine [.str "e= ", .int 31] = "e= 31" ∧ st.exit = some 0) ∧
      (st.pc ≠ .halted → st.exit = none ∧ ∃ c, (step n st c).isSome = true) ∧
      sched.length ≤ 192 ∧
      ∃ more st2, main n (sched ++ more) x0 e0 = some st2 ∧ st2.pc = .halted := by
  have hi : Inv n st := inv_reachable h
  refine ⟨?_, ?_, ?_, ?_⟩
  · intro hp
    obtain ⟨o, -, -, hlines⟩ := hi.halted_output hp
    refine ⟨by rw [hlines]; simp, by decide, ?_⟩
    rw [hi.code, if_pos hp]
  · intro hp
    refine ⟨by rw [hi.code, if_neg hp], progress hn hi hp⟩
  · have := exec_fuel sched h
    have h0 : (init x0 e0).fuel = 192 := rfl
    omega
  · obtain ⟨more, st2, h2, h3⟩ := exists_completion hn st.fuel st (Nat.le_refl _) hi
    refine ⟨more, st2, ?_, h3⟩
    unfold main at h ⊢
    rw [exec_append, h]
    exact h2

theorem main_prints_31_witness :
    main 2 demoSchedule 5 7 = some demoFinal ∧ demoFinal.pc = .halted ∧
      (linesOf demoFinal.output).getLast? = some [.str "e= ", .int 31] ∧
      demoFinal.exit = some 0 :=
  have hp : demoFinal.pc = .halted := by decide
  have hk := (main_prints_31 2 (by decide) 5 7 demoSchedule demoFinal demo_run).1 hp
  ⟨demo_run, hp, hk.1, hk.2.2⟩

/-! ## The work functions -/

theorem wrapInt32_of_inInt32 {z : Int} (h : inInt32 z) : wrapInt32 z = z := by
  unfold inInt32 at h
  unfold wrapInt32
  omega

/-- C4. The five work functions return values that depend on their data arguments only:
`A`, `B`, `C` return 1, 10, 20 for every worker id; `f1` and `f2` return the `int` sum of
their first two arguments, which is the mathematical sum whenever that fits an `int`;
changing the worker id changes none of the five results. -/
theorem work_functions_pure (th : Int) :
    (A th).ret = 1 ∧ (B th).ret = 10 ∧ (C th).ret = 20 ∧
      (∀ a b : Int, (f1 a b th).ret = addInt a b ∧ (f2 a b th).ret = addInt a b) ∧
      (∀ a b : Int, inInt32 (a + b) → (f1 a b th).ret = a + b ∧ (f2 a b th).ret = a + b) ∧
      (∀ th2 : Int, (A th).ret = (A th2).ret ∧ (B th).ret = (B th2).ret ∧
        (C th).ret = (C th2).ret ∧
        ∀ a b : Int, (f1 a b th).ret = (f1 a b th2).ret ∧ (f2 a b th).ret = (f2 a b th2).ret) := by
  refine ⟨rfl, rfl, rfl, fun a b => ⟨rfl, rfl⟩, ?_, fun th2 => ⟨rfl, rfl, rfl, fun a b => ⟨rfl, rfl⟩⟩⟩
  intro a b hab
  exact ⟨wrapInt32_of_inInt32 hab, wrapInt32_of_inInt32 hab⟩

theorem work_functions_pure_witness :
    inInt32 (10 + 20) ∧ (f1 10 20 3).ret = 10 + 20 ∧ (f2 10 20 3).ret = 10 + 20 :=
  ⟨by decide, (work_functions_pure 3).2.2.2.2.1 10 20 (by decide)⟩

/-- C5. What each work function sends to standard output, for every worker id: `A` the
line `Processing A, th=<th>` and then the line `A Done` (`B` and `C` alike, with their
letter); `f1` the single line `Processing f1, th=<th>` and `f2` the single line
`Processing f2, th=<th>`, neither followed by a completion line.  Every line is closed
by `endl`. -/
theorem work_functions_output (a b th : Int) :
    tokensOf (A th).acts =
        [.str "Processing A, th=", .int th, .endl, .str "A Done", .endl] ∧
      tokensOf (B th).acts =
        [.str "Processing B, th=", .int th, .endl, .str "B Done", .endl] ∧
      tokensOf (C th).acts =
        [.str "Processing C, th=", .int th, .endl, .str "C Done", .endl] ∧
      tokensOf (f1 a b th).acts = [.str "Processing f1, th=", .int th, .endl] ∧
      tokensOf (f2 a b th).acts = [.str "Processing f2, th=", .int th, .endl] ∧
      linesOf (tokensOf (A th).acts) = [[.str "Processing A, th=", .int th], [.str "A Done"]] ∧
      linesOf (tokensOf (B th).acts) = [[.str "Processing B, th=", .int th], [.str "B Done"]] ∧
      linesOf (tokensOf (C th).acts) = [[.str "Processing C, th=", .int th], [.str "C Done"]] ∧
      linesOf (tokensOf (f1 a b th).acts) = [[.str "Processing f1, th=", .int th]] ∧
      linesOf (tokensOf (f2 a b th).acts) = [[.str "Processing f2, th=", .int th]] ∧
      (linesOf (tokensOf (A th).acts)).map renderLine =
        ["Processing A, th=" ++ toString th, "A Done"] ∧
      (linesOf (tokensOf (f1 a b th).acts)).map renderLine =
        ["Processing f1, th=" ++ toString th] ∧
      (linesOf (tokensOf (f2 a b th).acts)).map renderLine =
        ["Processing f2, th=" ++ toString th] := by
  refine ⟨rfl, rfl, rfl, rfl, rfl, rfl, rfl, rfl, rfl, rfl, ?_, ?_, ?_⟩ <;>
    simp [A, f1, f2, tokensOf, linesOf, linesAux, renderLine, Tok.render, String.join]

/-- C9. The delays of `A`, `B`, `C`, `f1`, `f2` are 7, 6, 5, 4 and 5 seconds: each
function passes to `usleep` exactly one argument, equal to 7000000, 6000000, 5000000,
4000000 and 5000000 microseconds; the `int` products `1000*1000` and `1000*1000*k` equal
the mathematical products and stay inside the range of `int`, and the conversion to the
unsigned microsecond type leaves the value unchanged. -/
theorem delays_exact (a b th : Int) :
    sleepsOf (A th).acts = [7000000] ∧ sleepsOf (B th).acts = [6000000] ∧
      sleepsOf (C th).acts = [5000000] ∧ sleepsOf (f1 a b th).acts = [4000000] ∧
      sleepsOf (f2 a b th).acts = [5000000] ∧
      mulInt 1000 1000 = 1000 * 1000 ∧ inInt32 (1000 * 1000) ∧
      (∀ k : Int, k ∈ [7, 6, 5, 4] →
        mulInt (mulInt 1000 1000) k = 1000 * 1000 * k ∧ inInt32 (1000 * 1000 * k) ∧
        ((toUseconds (mulInt (mulInt 1000 1000) k) : Nat) : Int) = 1000 * 1000 * k ∧
        toUseconds (mulInt (mulInt 1000 1000) k) < 4294967296) := by
  refine ⟨rfl, rfl, rfl, rfl, rfl, by decide, by decide, ?_⟩
  intro k hk
  simp only [List.mem_cons, List.mem_singleton, List.not_mem_nil, or_false] at hk
  rcases hk with rfl | rfl | rfl | rfl <;> decide

theorem delays_exact_witness :
    (7 : Int) ∈ [7, 6, 5, 4] ∧ mulInt (mulInt 1000 1000) 7 = 1000 * 1000 * 7 ∧
      inInt32 (1000 * 1000 * 7) :=
  have h7 : (7 : Int) ∈ [7, 6, 5, 4] := by decide
  have hk := (delays_exact 0 0 0).2.2.2.2.2.2.2 7 h7
  ⟨h7, hk.1, hk.2.1⟩

/-! ## The taskwait -/

theorem mem_outputOf {tr : List Ev} {tk : Tok} :
    tk ∈ outputOf tr ↔ ∃ ev ∈ tr, ev.tok? = some tk := by
  simp [outputOf, List.mem_filterMap]

theorem outputOf_taskEvents (t : Tk) (th : Nat) :
    outputOf (taskEvents t th) = tokensOf (t.call th).acts := by
  cases t <;> rfl

/-- An event of `main` in the trace is one of `mainEvents`. -/
theorem Inv.main_ev {n : Nat} {st : State} (h : Inv n st) {ev : Ev}
    (he : ev ∈ st.trace) (hw : ev.who = .main) : ev ∈ mainEvents st.single := by
  obtain ⟨r, hr, -⟩ := h.main_rest
  rw [← hr]
  exact List.mem_append_left _ (mem_proj.mpr ⟨he, hw⟩)

/-- A token printed by a task is one of the five tokens of its function. -/
theorem Inv.task_tok {n : Nat} {st : State} (h : Inv n st) {tk : Tok}
    (hk : tk ∈ outputOf (taskPart st.trace)) :
    ∃ (t : Tk) (th : Nat), th < n ∧ tk ∈ tokensOf (t.call th).acts := by
  obtain ⟨ev, he, hev⟩ := mem_outputOf.mp hk
  obtain ⟨he1, he2⟩ := mem_taskPart.mp he
  cases hw : ev.who with
  | main => exact absurd hw he2
  | task t =>
      obtain ⟨th, hth, hmem⟩ := h.task_ev he1 hw
      refine ⟨t, th, hth, ?_⟩
      rw [← outputOf_taskEvents]
      exact mem_outputOf.mpr ⟨ev, hmem, hev⟩

/-- After the `taskwait`, the output of the tasks is a shuffle of the five tokens of
each of `A`, `B`, `C`. -/
theorem Inv.late_output_perm {n : Nat} {st : State} (h : Inv n st) (hl : st.pc.late = true) :
    ∃ a b c, a < n ∧ b < n ∧ c < n ∧
      (outputOf (taskPart st.trace)).Perm
        (tokensOf (A a).acts ++ (tokensOf (B b).acts ++ tokensOf (C c).acts)) := by
  obtain ⟨a, ha, -, hpa⟩ := h.late_tasks hl .A
  obtain ⟨b, hb, -, hpb⟩ := h.late_tasks hl .B
  obtain ⟨c, hc, -, hpc⟩ := h.late_tasks hl .C
  refine ⟨a, b, c, ha, hb, hc, ?_⟩
  have hp := (taskPart_perm st.trace).filterMap Ev.tok?
  rw [hpa, hpb, hpc] at hp
  simp only [List.filterMap_append] at hp
  exact hp

theorem task_tok_cases {t : Tk} {th : Nat} {tk : Tok} (h : tk ∈ tokensOf (t.call th).acts) :
    tk = .endl ∨ tk = .int th ∨ tk = .str "Processing A, th=" ∨ tk = .str "A Done" ∨
      tk = .str "Processing B, th=" ∨ tk = .str "B Done" ∨
      tk = .str "Processing C, th=" ∨ tk = .str "C Done" := by
  cases t <;> simp [Tk.call, A, B, C, tokensOf] at h <;>
    (rcases h with h | h | h | h | h <;> subst h <;> simp)

/-- The full output up to what `main` has still to print. -/
theorem Inv.output_full {n : Nat} {st : State} (h : Inv n st) :
    ∃ r, st.output ++ r = outputOf (taskPart st.trace) ++
      [.str "Processing f1, th=", .int st.single, .endl,
       .str "Processing f2, th=", .int st.single, .endl, .str "e= ", .int 31, .endl] := by
  obtain ⟨r, hr, -⟩ := h.full
  refine ⟨outputOf r, ?_⟩
  unfold State.output
  rw [← outputOf_append, hr, outputOf_append, outputOf_mainEvents]

/-- Once a token of `main` is on the output, the `taskwait` has returned. -/
theorem Inv.late_of_output {n : Nat} {st : State} (h : Inv n st) {tk : Tok}
    (hk : tk ∈ st.output) (hno : ∀ t th, tk ∉ tokensOf (Tk.call t th).acts) :
    st.pc.late = true := by
  obtain ⟨ev, he, hev⟩ := mem_outputOf.mp hk
  cases hw : ev.who with
  | main => exact h.late_of_main he hw
  | task t =>
      obtain ⟨th, hth, hmem⟩ := h.task_ev he hw
      refine absurd ?_ (hno t th)
      rw [← outputOf_taskEvents]
      exact mem_outputOf.mpr ⟨ev, hmem, hev⟩

/-- C2. In every execution of `main`: once the `taskwait` has returned, tasks A, B and C
have all completed; and wherever the start token of `f1` stands in the output, the
tokens `A Done`, `B Done` and `C Done` and all six line ends of the tasks stand
before it. -/
theorem f1_after_tasks_done (n : Nat) (x0 e0 : Int) (sched : List Choice) (st : State)
    (h : main n sched x0 e0 = some st) :
    (st.pc.late = true → ∀ t, ∃ th, th < n ∧ st.task t = .done th) ∧
      (∀ pre post, st.output = pre ++ Tok.str "Processing f1, th=" :: post →
        Tok.str "A Done" ∈ pre ∧ Tok.str "B Done" ∈ pre ∧ Tok.str "C Done" ∈ pre ∧
          pre.count .endl = 6) := by
  have hi : Inv n st := inv_reachable h
  refine ⟨?_, ?_⟩
  · intro hl t
    obtain ⟨th, hth, hd, -⟩ := hi.late_tasks hl t
    exact ⟨th, hth, hd⟩
  · intro pre post hout
    have hno : ∀ t th, Tok.str "Processing f1, th=" ∉ tokensOf (Tk.call t th).acts := by
      intro t th hm
      have := task_tok_cases hm
      simp at this
    have hl : st.pc.late = true := hi.late_of_output (by rw [hout]; simp) hno
    obtain ⟨r, hr⟩ := hi.output_full
    rw [hout, List.append_assoc, List.cons_append] at hr
    have hsplit := split_unique (p := fun tk => tk = Tok.str "Processing f1, th=") hr rfl
      (by
        intro z hz hz2
        obtain ⟨t, th, -, hm⟩ := hi.task_tok hz
        exact hno t th (hz2 ▸ hm))
      (by simp)
    have hpre : pre = outputOf (taskPart st.trace) := hsplit.1
    obtain ⟨a, b, c, -, -, -, hperm⟩ := hi.late_output_perm hl
    rw [hpre]
    refine ⟨hperm.mem_iff.mpr ?_, hperm.mem_iff.mpr ?_, hperm.mem_iff.mpr ?_, ?_⟩
    · simp [A, tokensOf]
    · simp [B, tokensOf]
    · simp [C, tokensOf]
    · rw [hperm.count_eq]
      simp [A, B, C, tokensOf]

theorem f1_after_tasks_done_witness :
    main 2 demoSchedule 5 7 = some demoFinal ∧
      demoFinal.output =
        demoFinal.output.take 15 ++ Tok.str "Processing f1, th=" :: demoFinal.output.drop 16 ∧
      Tok.str "A Done" ∈ demoFinal.output.take 15 ∧
      (demoFinal.output.take 15).count .endl = 6 :=
  have hsplit : demoFinal.output =
      demoFinal.output.take 15 ++ Tok.str "Processing f1, th=" :: demoFinal.output.drop 16 := by
    decide
  have hk := (f1_after_tasks_done 2 5 7 demoSchedule demoFinal demo_run).2 _ _ hsplit
  ⟨demo_run, hsplit, hk.1, hk.2.2.2⟩

/-! ## Reads, writes and the order of the two calls -/

theorem mem_taskEvents {t : Tk} {th : Nat} {ev : Ev} (h : ev ∈ taskEvents t th) :
    ev.th = th ∧ ev.who = .task t ∧ ev.op ∈ t.ops th := by
  unfold taskEvents evsOf at h
  obtain ⟨op, ho, rfl⟩ := List.mem_map.mp h
  exact ⟨rfl, rfl, ho⟩

theorem task_op_cases {t : Tk} {th : Nat} {op : Op} (h : op ∈ t.ops th) :
    op = .call t.fn [(th : Int)] ∨ (∃ a, op = .act a) ∨ op = .ret t.fn t.val ∨
      op = .write t.var t.val := by
  cases t <;> simp [Tk.ops, stmtOps, Tk.call, A, B, C, Tk.fn, Tk.var, Tk.val] at h ⊢ <;>
    (rcases h with h | h | h | h | h | h | h | h | h <;> subst h <;> simp)

theorem mainEvents_eq (s : Nat) :
    mainEvents s =
      [⟨s, .main, .call .f1 [10, 20, (s : Int)]⟩,
       ⟨s, .main, .act (.put (.str "Processing f1, th="))⟩,
       ⟨s, .main, .act (.put (.int s))⟩,
       ⟨s, .main, .act (.put .endl)⟩,
       ⟨s, .main, .act (.usleep 4000000)⟩,
       ⟨s, .main, .ret .f1 30⟩,
       ⟨s, .main, .write .x 30⟩,
       ⟨s, .main, .call .f2 [1, 30, (s : Int)]⟩,
       ⟨s, .main, .act (.put (.str "Processing f2, th="))⟩,
       ⟨s, .main, .act (.put (.int s))⟩,
       ⟨s, .main, .act (.put .endl)⟩,
       ⟨s, .main, .act (.usleep 5000000)⟩,
       ⟨s, .main, .ret .f2 31⟩,
       ⟨s, .main, .write .e 31⟩,
       ⟨0, .main, .act (.put (.str "e= "))⟩,
       ⟨0, .main, .act (.put (.int 31))⟩,
       ⟨0, .main, .act (.put .endl)⟩] := rfl

/-- The calls of `f1` and `f2` and the store into `x` among the events of `main`. -/
theorem mainEvents_ops {s : Nat} {ev : Ev} (h : ev ∈ mainEvents s) :
    (∀ args, ev.op = .call .f1 args → ev.th = s ∧ args = [10, 20, (s : Int)]) ∧
      (∀ args, ev.op = .call .f2 args → ev.th = s ∧ args = [1, 30, (s : Int)]) ∧
      (∀ f args, ev.op = .call f args → f = .f1 ∨ f = .f2) := by
  rw [mainEvents_eq] at h
  simp only [List.mem_cons, List.mem_singleton, List.not_mem_nil, or_false] at h
  rcases h with h | h | h | h | h | h | h | h | h | h | h | h | h | h | h | h | h <;>
    subst h <;> simp


/-- The arguments of the calls of `f1` and `f2` recorded in a trace of `main`. -/
theorem Inv.call_args {n : Nat} {st : State} (h : Inv n st) {ev : Ev} (he : ev ∈ st.trace) :
    (∀ args, ev.op = .call .f1 args →
        ev.who = .main ∧ ev.th = st.single ∧ args = [10, 20, (st.single : Int)]) ∧
      (∀ args, ev.op = .call .f2 args →
        ev.who = .main ∧ ev.th = st.single ∧ args = [1, 30, (st.single : Int)]) := by
  cases hw : ev.who with
  | main =>
      have hm := mainEvents_ops (h.main_ev he hw)
      exact ⟨fun args e => ⟨rfl, hm.1 args e⟩, fun args e => ⟨rfl, hm.2.1 args e⟩⟩
  | task t =>
      obtain ⟨th, -, hmem⟩ := h.task_ev he hw
      have hc := task_op_cases (mem_taskEvents hmem).2.2
      constructor <;> intro args e <;> rw [e] at hc <;> cases t <;> simp [Tk.fn] at hc

/-- C3. In every reachable state of `main` no shared variable is read before its writer
has finished.  When `f1` is about to be called, tasks A, B, C have completed and `v = 10`,
`w = 20`; every recorded call of `f1` has the arguments 10 and 20, every value stored
into `x` is 30, and the operations the call step prepares do not change when `y` is
overwritten.  When `f2` is about to be called, `y = 1` and `x = 30`, and every recorded
call of `f2` has the arguments 1 and 30.  When `e` is about to be printed, `e = 31`. -/
theorem reads_after_writes (n : Nat) (x0 e0 : Int) (sched : List Choice) (st : State)
    (h : main n sched x0 e0 = some st) :
    (st.pc = .callF1 →
        (∀ t, ∃ th, st.task t = .done th) ∧ st.mem .v = 10 ∧ st.mem .w = 20 ∧
        ∀ val, (step n { st with mem := setVar st.mem .y val } .main).map State.cont =
          (step n st .main).map State.cont) ∧
      (st.pc = .callF2 →
        (∀ t, ∃ th, st.task t = .done th) ∧ st.mem .y = 1 ∧ st.mem .x = 30 ∧
        Ev.mk st.single .main (.write .x 30) ∈ st.trace) ∧
      (st.pc = .print → st.mem .e = 31 ∧ Ev.mk st.single .main (.write .e 31) ∈ st.trace) ∧
      (∀ ev ∈ st.trace, ∀ args, ev.op = .call .f1 args → args = [10, 20, (ev.th : Int)]) ∧
      (∀ ev ∈ st.trace, ∀ args, ev.op = .call .f2 args → args = [1, 30, (ev.th : Int)]) ∧
      (∀ ev ∈ st.trace, ∀ val, ev.op = .write .x val → val = 30) := by
  have hi : Inv n st := inv_reachable h
  have hm := hi.main
  refine ⟨?_, ?_, ?_, ?_, ?_, ?_⟩
  · intro hp
    have hl : st.pc.late = true := by rw [hp]; rfl
    have hv := hi.val_done hl .B
    have hw := hi.val_done hl .C
    refine ⟨hi.late hl, hv, hw, ?_⟩
    intro val
    simp [step, hp, setVar]
  · intro hp
    have hl : st.pc.late = true := by rw [hp]; rfl
    rw [hp] at hm
    simp only [MainOK] at hm
    refine ⟨hi.late hl, hi.val_done hl .A, hm.2, ?_⟩
    have : Ev.mk st.single .main (.write .x 30) ∈ proj .main st.trace := by
      rw [hm.1]; simp [lineX, evsOf, stmtOps, f1, addInt_10_20]
    exact (mem_proj.mp this).1
  · intro hp
    rw [hp] at hm
    simp only [MainOK] at hm
    refine ⟨hm.2, ?_⟩
    have : Ev.mk st.single .main (.write .e 31) ∈ proj .main st.trace := by
      rw [hm.1]; simp [lineE, evsOf, stmtOps, f2, addInt_1_30]
    exact (mem_proj.mp this).1
  · intro ev he args e
    obtain ⟨-, h2, h3⟩ := (hi.call_args he).1 args e
    rw [h3, h2]
  · intro ev he args e
    obtain ⟨-, h2, h3⟩ := (hi.call_args he).2 args e
    rw [h3, h2]
  · intro ev he val e
    cases hw : ev.who with
    | main =>
        rcases main_write (hi.main_ev he hw) e with h1 | h1
        · exact h1.2
        · cases h1.1
    | task t =>
        obtain ⟨th, -, hmem⟩ := hi.task_ev he hw
        have := (ops_write (by rw [← e]; exact (mem_taskEvents hmem).2.2)).1
        exact absurd this (Tk.var_ne_x t)

theorem reads_after_writes_witness :
    main 2 (demoSchedule.take 38) 5 7 = some demoAtF1 ∧ demoAtF1.pc = .callF1 ∧
      demoAtF1.mem .v = 10 ∧ demoAtF1.mem .w = 20 :=
  have hr : main 2 (demoSchedule.take 38) 5 7 = some demoAtF1 := eq_some_getD _ (by decide)
  have hp : demoAtF1.pc = .callF1 := by decide
  have hk := (reads_after_writes 2 5 7 (demoSchedule.take 38) demoAtF1 hr).1 hp
  ⟨hr, hp, hk.2.1, hk.2.2.1⟩

/-- C7. In every execution of `main`, `f2` starts only after `f1` has completed, in the
same calling context.  A recorded call of `f2` is made by `main` on the thread of the
`single` block, directly after the complete statement `x = f1(v, w, ...)` run by that same
thread, and its second argument is the value `f1` returned.  In the output, the start
token of `f2` directly follows the complete line `Processing f1, th=<id>`, and the worker
id printed after it is that same `<id>`. -/
theorem f2_follows_f1 (n : Nat) (x0 e0 : Int) (sched : List Choice) (st : State)
    (h : main n sched x0 e0 = some st) :
    (∀ pre post th w args, st.trace = pre ++ Ev.mk th w (.call .f2 args) :: post →
        w = .main ∧ args = [1, (f1 10 20 th).ret, (th : Int)] ∧
        ∃ p, pre = p ++ evsOf th .main (stmtOps .f1 [10, 20, (th : Int)] (f1 10 20 th) .x)) ∧
      (∀ pre post, st.output = pre ++ Tok.str "Processing f2, th=" :: post →
        ∃ p, pre = p ++ [.str "Processing f1, th=", .int st.single, .endl] ∧
          (post = [] ∨ ∃ q, post = .int st.single :: q)) := by
  have hi : Inv n st := inv_reachable h
  refine ⟨?_, ?_⟩
  · intro pre post th w args htr
    have he : Ev.mk th w (.call .f2 args) ∈ st.trace := by rw [htr]; simp
    obtain ⟨hw, hth, hargs⟩ := (hi.call_args he).2 args rfl
    simp only at hw hth
    subst hth
    refine ⟨hw, by rw [hargs]; rfl, ?_⟩
    obtain ⟨r, hr, -⟩ := hi.full
    have hr2 : pre ++ Ev.mk st.single w (.call .f2 args) :: (post ++ r) =
        taskPart st.trace ++ mainEvents st.single := by
      rw [← List.cons_append, ← List.append_assoc, ← htr]
      exact hr
    have hsplit := split_unique (p := fun ev => ∃ a, ev.op = .call .f2 a)
      (c := taskPart st.trace ++ lineX st.single)
      (y := Ev.mk st.single .main (.call .f2 [1, 30, (st.single : Int)]))
      (d := (lineE st.single).tail ++ lineP)
      (by rw [hr2]; simp [mainEvents, lineE, evsOf, stmtOps]) ⟨args, rfl⟩
      (by
        intro z hz ⟨a, ha⟩
        rcases List.mem_append.mp hz with hz | hz
        · obtain ⟨hz1, hz2⟩ := mem_taskPart.mp hz
          exact hz2 ((hi.call_args hz1).2 a ha).1
        · rcases z with ⟨zt, zw, zo⟩
          simp only at ha
          subst ha
          simp [lineX, evsOf, stmtOps, f1] at hz)
      (by
        intro z hz ⟨a, ha⟩
        rcases z with ⟨zt, zw, zo⟩
        simp only at ha
        subst ha
        simp [lineE, lineP, evsOf, stmtOps, f2] at hz)
    exact ⟨taskPart st.trace, hsplit.1⟩
  · intro pre post hout
    obtain ⟨r, hr⟩ := hi.output_full
    rw [hout, List.append_assoc, List.cons_append] at hr
    have hsplit := split_unique (p := fun tk => tk = Tok.str "Processing f2, th=")
      (c := outputOf (taskPart st.trace) ++ [.str "Processing f1, th=", .int st.single, .endl])
      (y := Tok.str "Processing f2, th=")
      (d := [.int st.single, .endl, .str "e= ", .int 31, .endl])
      (by rw [hr]; simp) rfl
      (by
        intro z hz hz2
        rcases List.mem_append.mp hz with hz | hz
        · obtain ⟨t, th, -, hm⟩ := hi.task_tok hz
          have := task_tok_cases hm
          rw [hz2] at this
          simp at this
        · rw [hz2] at hz; simp at hz)
      (by simp)
    refine ⟨outputOf (taskPart st.trace), hsplit.1, ?_⟩
    have h3 := hsplit.2.2
    cases post with
    | nil => left; rfl
    | cons tk q =>
        right
        simp only [List.cons_append, List.cons.injEq] at h3
        exact ⟨q, by rw [h3.1]⟩

theorem f2_follows_f1_witness :
    main 2 demoSchedule 5 7 = some demoFinal ∧
      demoFinal.output =
        demoFinal.output.take 18 ++ Tok.str "Processing f2, th=" :: demoFinal.output.drop 19 ∧
      ∃ p, demoFinal.output.take 18 =
        p ++ [.str "Processing f1, th=", .int demoFinal.single, .endl] :=
  have hsplit : demoFinal.output =
      demoFinal.output.take 18 ++ Tok.str "Processing f2, th=" :: demoFinal.output.drop 19 := by
    decide
  have hk := (f2_follows_f1 2 5 7 demoSchedule demoFinal demo_run).2 _ _ hsplit
  ⟨demo_run, hsplit, hk.imp fun _ hp => hp.1⟩

/-! ## Stores into the shared variables -/

theorem writeCount_append (d : Var) (a b : List Ev) :
    writeCount d (a ++ b) = writeCount d a + writeCount d b := by
  simp [writeCount, List.countP_append]

theorem writeCount_taskEvents (d : Var) (t : Tk) (th : Nat) :
    writeCount d (taskEvents t th) = if t.var = d then 1 else 0 := by
  cases t <;> cases d <;> rfl

theorem writeCount_mainEvents (d : Var) (s : Nat) :
    writeCount d (mainEvents s) = if d = .x ∨ d = .e then 1 else 0 := by
  cases d <;> rfl

theorem Inv.task_count {n : Nat} {st : State} (h : Inv n st) (d : Var) (t : Tk) :
    writeCount d (proj (.task t) st.trace) ≤ if t.var = d then 1 else 0 := by
  have ht := h.tasks t
  cases hs : st.task t with
  | absent => rw [hs] at ht; simp only [TaskOK] at ht; rw [ht]; simp [writeCount]
  | ready => rw [hs] at ht; simp only [TaskOK] at ht; rw [ht]; simp [writeCount]
  | running th rest =>
      rw [hs] at ht
      have := writeCount_taskEvents d t th
      unfold taskEvents at this
      rw [← ht.2, writeCount_append] at this
      omega
  | done th =>
      rw [hs] at ht
      have := writeCount_taskEvents d t th
      unfold taskEvents at this
      rw [← ht.2] at this
      omega

theorem writeCount_taskPart (d : Var) (tr : List Ev) :
    writeCount d (taskPart tr) = writeCount d (proj (.task .A) tr) +
      (writeCount d (proj (.task .B) tr) + writeCount d (proj (.task .C) tr)) := by
  unfold writeCount
  rw [(taskPart_perm tr).countP_eq, List.countP_append, List.countP_append]

/-- A step either leaves the shared variables alone or is one recorded store, which
changes the variable it names and no other. -/
theorem step_frame {n : Nat} {st st2 : State} {c : Choice} (hs : step n st c = some st2) :
    (st2.mem = st.mem ∧ ∀ d, writeCount d st2.trace = writeCount d st.trace) ∨
      ∃ th w d val, st2.trace = st.trace ++ [Ev.mk th w (.write d val)] ∧ st2.mem d = val ∧
        ∀ z, z ≠ d → st2.mem z = st.mem z := by
  have emit : ∀ th w op, ((st.emit th w op).mem = st.mem ∧
      ∀ d, writeCount d (st.emit th w op).trace = writeCount d st.trace) ∨
      ∃ th2 w2 d val, (st.emit th w op).trace = st.trace ++ [Ev.mk th2 w2 (.write d val)] ∧
        (st.emit th w op).mem d = val ∧ ∀ z, z ≠ d → (st.emit th w op).mem z = st.mem z := by
    intro th w op
    cases op with
    | write d val =>
        right
        refine ⟨th, w, d, val, rfl, by simp [State.emit, applyOp, setVar], ?_⟩
        intro z hz
        simp [State.emit, applyOp, setVar, hz]
    | call f args => left; exact ⟨rfl, fun d => by simp [State.emit, writeCount, Ev.writesTo]⟩
    | act a => left; exact ⟨rfl, fun d => by simp [State.emit, writeCount, Ev.writesTo]⟩
    | ret f val => left; exact ⟨rfl, fun d => by simp [State.emit, writeCount, Ev.writesTo]⟩
  cases c with
  | single th =>
      simp only [step] at hs
      split at hs
      · cases hs; exact Or.inl ⟨rfl, fun _ => rfl⟩
      · cases hs
  | start t th =>
      simp only [step] at hs
      split at hs
      · cases hs; exact Or.inl ⟨rfl, fun _ => rfl⟩
      · cases hs
  | run t =>
      simp only [step] at hs
      split at hs
      · rename_i th op rest hrun
        cases hs
        exact emit th (.task t) op
      · cases hs; exact Or.inl ⟨rfl, fun _ => rfl⟩
      · cases hs
  | main =>
      cases hp : st.pc <;> simp only [step, hp] at hs
      case fork => cases hs
      case halted => cases hs
      case taskwait =>
        split at hs
        · cases hs; exact Or.inl ⟨rfl, fun _ => rfl⟩
        · cases hs
      case join =>
        split at hs
        · cases hs; exact Or.inl ⟨rfl, fun _ => rfl⟩
        · cases hs
      case inF1 =>
        split at hs
        · cases hs; exact emit _ _ _
        · cases hs; exact Or.inl ⟨rfl, fun _ => rfl⟩
      case inF2 =>
        split at hs
        · cases hs; exact emit _ _ _
        · cases hs; exact Or.inl ⟨rfl, fun _ => rfl⟩
      case inPrint =>
        split at hs
        · cases hs; exact emit _ _ _
        · cases hs; exact Or.inl ⟨rfl, fun _ => rfl⟩
      all_goals first
        | (cases hs; exact Or.inl ⟨rfl, fun _ => rfl⟩)
        | (obtain ⟨-, rfl⟩ := ite_some_eq hs; exact Or.inl ⟨rfl, fun _ => rfl⟩)

/-- C10. Single-writer frame property on the shared variables `y`, `v`, `w`, `x`, `e`.
Every store in a trace of `main` is the store of task A into `y` (value 1), of task B into
`v` (10), of task C into `w` (20), or a store of `main` itself into `x` (30, the result of
`f1`) or into `e` (31, the result of `f2`); each of the five statements holds exactly one
store.  A step changes the shared variables only by one recorded store, which leaves the
other four variables as they were.  No variable is stored into more than once, and in a
complete run each of the five is stored into exactly once. -/
theorem single_writer (n : Nat) (x0 e0 : Int) (sched : List Choice) (st : State)
    (h : main n sched x0 e0 = some st) :
    (∀ ev ∈ st.trace, ∀ d val, ev.op = .write d val →
        (∃ t, ev.who = .task t ∧ d = t.var ∧ val = t.val) ∨
        (ev.who = .main ∧ ((d = .x ∧ val = 30) ∨ (d = .e ∧ val = 31)))) ∧
      (∀ t th d, writeCount d (taskEvents t th) = if t.var = d then 1 else 0) ∧
      (∀ s d, writeCount d (lineX s) = if d = .x then 1 else 0) ∧
      (∀ s d, writeCount d (lineE s) = if d = .e then 1 else 0) ∧
      (∀ c st2, step n st c = some st2 →
        (st2.mem = st.mem ∧ ∀ d, writeCount d st2.trace = writeCount d st.trace) ∨
        ∃ th w d val, st2.trace = st.trace ++ [Ev.mk th w (.write d val)] ∧ st2.mem d = val ∧
          ∀ z, z ≠ d → st2.mem z = st.mem z) ∧
      (∀ d, writeCount d st.trace ≤ 1) ∧
      (st.pc = .halted → ∀ d, writeCount d st.trace = 1) := by
  have hi : Inv n st := inv_reachable h
  refine ⟨?_, fun t th d => writeCount_taskEvents d t th, ?_, ?_, fun c st2 hs => step_frame hs,
    ?_, ?_⟩
  · intro ev he d val e
    cases hw : ev.who with
    | main => exact Or.inr ⟨rfl, main_write (hi.main_ev he hw) e⟩
    | task t =>
        obtain ⟨th, -, hmem⟩ := hi.task_ev he hw
        have := ops_write (by rw [← e]; exact (mem_taskEvents hmem).2.2)
        exact Or.inl ⟨t, rfl, this⟩
  · intro s d; cases d <;> rfl
  · intro s d; cases d <;> rfl
  · intro d
    obtain ⟨r, hr, -⟩ := hi.full
    have h1 : writeCount d st.trace ≤ writeCount d (taskPart st.trace) +
        writeCount d (mainEvents st.single) := by
      rw [← writeCount_append, ← hr, writeCount_append]
      omega
    rw [writeCount_taskPart, writeCount_mainEvents] at h1
    have hA := hi.task_count d .A
    have hB := hi.task_count d .B
    have hC := hi.task_count d .C
    cases d <;> simp [Tk.var] at h1 hA hB hC <;> omega
  · intro hp d
    have hl : st.pc.late = true := by rw [hp]; rfl
    obtain ⟨a, -, -, hpa⟩ := hi.late_tasks hl .A
    obtain ⟨b, -, -, hpb⟩ := hi.late_tasks hl .B
    obtain ⟨c, -, -, hpc⟩ := hi.late_tasks hl .C
    rw [hi.halted_trace hp, writeCount_append, writeCount_taskPart, writeCount_mainEvents,
      hpa, hpb, hpc, writeCount_taskEvents, writeCount_taskEvents, writeCount_taskEvents]
    cases d <;> simp [Tk.var]

theorem single_writer_witness :
    main 2 demoSchedule 5 7 = some demoFinal ∧ demoFinal.pc = .halted ∧
      ∀ d, writeCount d demoFinal.trace = 1 :=
  have hp : demoFinal.pc = .halted := by decide
  ⟨demo_run, hp, (single_writer 2 5 7 demoSchedule demoFinal demo_run).2.2.2.2.2.2 hp⟩

/-! ## A team of one thread -/

theorem seqEvents_append (a b : List Tk) : seqEvents (a ++ b) = seqEvents a ++ seqEvents b := by
  induction a with
  | nil => rfl
  | cons t a ih => simp [seqEvents, ih]

/-- A change of status between `absent` and `ready` does not matter to `SeqOK`. -/
theorem SeqOK.setIdle {task : Tk → TaskSt} {tp : List Ev} {t : Tk} {s : TaskSt}
    (h : SeqOK task tp) (hold : task t = .absent ∨ task t = .ready)
    (hnew : s = .absent ∨ s = .ready) : SeqOK (setTask task t s) tp := by
  have hs1 : ∀ th, s ≠ .done th := by rcases hnew with e | e <;> simp [e]
  have hs2 : ∀ th rest, s ≠ .running th rest := by rcases hnew with e | e <;> simp [e]
  have ho1 : ∀ th, task t ≠ .done th := by rcases hold with e | e <;> simp [e]
  have ho2 : ∀ th rest, task t ≠ .running th rest := by rcases hold with e | e <;> simp [e]
  obtain ⟨ds, hnd, hds, hc⟩ := h
  refine ⟨ds, hnd, ?_, ?_⟩
  · intro t2
    by_cases e : t2 = t
    · subst e
      simp only [setTask, if_true]
      rw [hds]
      constructor
      · rintro ⟨th, hth⟩; exact absurd hth (ho1 th)
      · rintro ⟨th, hth⟩; exact absurd hth (hs1 th)
    · simpa [setTask, e] using hds t2
  · rcases hc with ⟨hno, htp⟩ | ⟨t1, th, rest, hrun, huniq, htp⟩
    · left
      refine ⟨?_, htp⟩
      intro t2 th rest
      by_cases e : t2 = t
      · subst e; simpa [setTask] using hs2 th rest
      · simpa [setTask, e] using hno t2 th rest
    · right
      have hne : t1 ≠ t := fun e => ho2 th rest (e ▸ hrun)
      refine ⟨t1, th, rest, by simpa [setTask, hne] using hrun, ?_, htp⟩
      intro t2 h2 th2 rest2
      by_cases e : t2 = t
      · subst e; simpa [setTask] using hs2 th2 rest2
      · simpa [setTask, e] using huniq t2 h2 th2 rest2


theorem busy_true {st : State} {t : Tk} {th : Nat} {rest : List Op}
    (h : st.task t = .running th rest) : st.busy th = true := by
  cases t <;> simp [State.busy, TaskSt.onThread, h]

theorem seq_init (x0 e0 : Int) : SeqOK (init x0 e0).task (taskPart (init x0 e0).trace) :=
  ⟨[], List.nodup_nil, by simp [init], Or.inl ⟨by simp [init], rfl⟩⟩

/-- With a team of one thread, running tasks never overlap. -/
theorem seq_step {st st2 : State} {c : Choice} (hi : Inv 1 st)
    (hq : SeqOK st.task (taskPart st.trace)) (hs : step 1 st c = some st2) :
    SeqOK st2.task (taskPart st2.trace) := by
  cases c with
  | single th =>
      simp only [step] at hs
      split at hs
      · cases hs; exact hq
      · cases hs
  | start t th =>
      simp only [step] at hs
      split at hs
      · rename_i hc
        obtain ⟨hth, hready, hbusy, -⟩ := hc
        cases hs
        obtain ⟨ds, hnd, hds, hcase⟩ := hq
        have hno : ∀ t2 th2 rest2, st.task t2 ≠ .running th2 rest2 := by
          rcases hcase with ⟨hno, -⟩ | ⟨t1, th1, rest1, hrun, -, -⟩
          · exact hno
          · have h1 := hi.tasks t1
            rw [hrun] at h1
            have : th1 = th := by have := h1.1; omega
            rw [this] at hrun
            rw [busy_true hrun] at hbusy
            cases hbusy
        have htp : taskPart st.trace = seqEvents ds := by
          rcases hcase with ⟨-, htp⟩ | ⟨t1, th1, rest1, hrun, -, -⟩
          · exact htp
          · exact absurd hrun (hno _ _ _)
        have hproj : proj (.task t) (taskPart st.trace) = [] := by
          have := hi.tasks t
          rw [hready] at this
          rw [proj_taskPart]
          exact this
        refine ⟨ds, hnd, ?_, Or.inr ⟨t, th, t.ops th, by simp [setTask], ?_, ?_⟩⟩
        · intro t2
          by_cases e : t2 = t
          · subst e
            rw [hds]
            simp [setTask, hready]
          · simpa [setTask, e] using hds t2
        · intro t2 h2 th2 rest2
          simpa [setTask, h2] using hno t2 th2 rest2
        · show taskPart st.trace = seqEvents ds ++ proj (.task t) (taskPart st.trace)
          rw [hproj, List.append_nil]
          exact htp
      · cases hs
  | run t =>
      simp only [step] at hs
      obtain ⟨ds, hnd, hds, hcase⟩ := hq
      split at hs
      · rename_i th op rest hrun
        cases hs
        rcases hcase with ⟨hno, -⟩ | ⟨t1, th1, rest1, hrun1, huniq, htp⟩
        · exact absurd hrun (hno _ _ _)
        · have e1 : t1 = t := by
            by_contra hne
            exact huniq t (fun e => hne e.symm) th (op :: rest) hrun
          subst e1
          refine ⟨ds, hnd, ?_, Or.inr ⟨t1, th, rest, by simp [setTask], ?_, ?_⟩⟩
          · intro t2
            by_cases e : t2 = t1
            · subst e
              rw [hds]
              simp [setTask, hrun]
            · simpa [setTask, e] using hds t2
          · intro t2 h2 th2 rest2
            simpa [setTask, h2] using huniq t2 h2 th2 rest2
          · show taskPart (st.trace ++ [Ev.mk th (.task t1) op]) =
              seqEvents ds ++ proj (.task t1) (taskPart (st.trace ++ [Ev.mk th (.task t1) op]))
            rw [taskPart_snoc, if_neg (by simp), proj_snoc, if_pos rfl, ← List.append_assoc,
              ← htp]
      · rename_i th hrun
        cases hs
        rcases hcase with ⟨hno, -⟩ | ⟨t1, th1, rest1, hrun1, huniq, htp⟩
        · exact absurd hrun (hno _ _ _)
        · have e1 : t1 = t := by
            by_contra hne
            exact huniq t (fun e => hne e.symm) th [] hrun
          subst e1
          have h1 := hi.tasks t1
          rw [hrun] at h1
          have hth : th = 0 := by have := h1.1; omega
          have hfull : proj (.task t1) (taskPart st.trace) = taskEvents t1 0 := by
            rw [proj_taskPart, ← hth]
            simpa [evsOf, taskEvents] using h1.2
          have hnot : t1 ∉ ds := by
            intro hm
            obtain ⟨k, hk⟩ := (hds t1).mp hm
            rw [hrun] at hk
            cases hk
          refine ⟨ds ++ [t1], ?_, ?_, Or.inl ⟨?_, ?_⟩⟩
          · refine List.Nodup.append hnd (List.nodup_singleton _) ?_
            intro a ha ha2
            rw [List.mem_singleton] at ha2
            exact hnot (ha2 ▸ ha)
          · intro t2
            by_cases e : t2 = t1
            · subst e
              simp [setTask]
            · simpa [setTask, e] using hds t2
          · intro t2 th2 rest2
            by_cases e : t2 = t1
            · subst e; simp [setTask]
            · simpa [setTask, e] using huniq t2 e th2 rest2
          · show taskPart st.trace = seqEvents (ds ++ [t1])
            rw [seqEvents_append, htp, hfull]
            simp [seqEvents, ← htp]
      · cases hs
  | main =>
      have emit : ∀ th op rest, SeqOK ({ st.emit th .main op with cont := rest } : State).task
          (taskPart ({ st.emit th .main op with cont := rest } : State).trace) := by
        intro th op rest
        show SeqOK st.task (taskPart (st.trace ++ [Ev.mk th .main op]))
        rw [taskPart_snoc]
        exact hq
      have hg := hi.gen
      cases hp : st.pc <;> simp only [step, hp] at hs
      case fork => cases hs
      case halted => cases hs
      case spawnA =>
        obtain ⟨-, rfl⟩ := ite_some_eq hs
        exact hq.setIdle (Or.inl ((hg .A).mpr (by rw [hp]; rfl))) (Or.inr rfl)
      case spawnB =>
        obtain ⟨-, rfl⟩ := ite_some_eq hs
        exact hq.setIdle (Or.inl ((hg .B).mpr (by rw [hp]; rfl))) (Or.inr rfl)
      case spawnC =>
        obtain ⟨-, rfl⟩ := ite_some_eq hs
        exact hq.setIdle (Or.inl ((hg .C).mpr (by rw [hp]; rfl))) (Or.inr rfl)
      case taskwait =>
        split at hs
        · cases hs; exact hq
        · cases hs
      case join =>
        split at hs
        · cases hs; exact hq
        · cases hs
      case inF1 =>
        split at hs
        · cases hs; exact emit _ _ _
        · cases hs; exact hq
      case inF2 =>
        split at hs
        · cases hs; exact emit _ _ _
        · cases hs; exact hq
      case inPrint =>
        split at hs
        · cases hs; exact emit _ _ _
        · cases hs; exact hq
      all_goals (cases hs; exact hq)

theorem seq_exec : ∀ (sched : List Choice) {st st2 : State}, Inv 1 st →
    SeqOK st.task (taskPart st.trace) → exec 1 sched st = some st2 →
    SeqOK st2.task (taskPart st2.trace)
  | [], st, st2, _, hq, hs => by
      simp only [exec, Option.some.injEq] at hs
      exact hs ▸ hq
  | c :: cs, st, st2, hi, hq, hs => by
      simp only [exec] at hs
      cases hc : step 1 st c with
      | none => rw [hc] at hs; cases hs
      | some st1 =>
          rw [hc] at hs
          exact seq_exec cs (inv_step hi hc) (seq_step hi hq hc) hs


theorem mem_taskOrders {ds : List Tk} (hnd : ds.Nodup) (hall : ∀ t, t ∈ ds) :
    ds ∈ taskOrders := by
  have hA := hall .A
  have hB := hall .B
  have hC := hall .C
  rcases ds with _ | ⟨a, _ | ⟨b, _ | ⟨c, _ | ⟨d, r⟩⟩⟩⟩
  · simp at hA
  · cases a <;> simp at hA hB hC
  · cases a <;> cases b <;> simp at hA hB hC
  · cases a <;> cases b <;> cases c <;> simp at hA hB hC hnd <;> simp [taskOrders]
  · cases a <;> cases b <;> cases c <;> cases d <;> simp at hnd

/-- A complete run of `main` on one thread prints the whole lines of the tasks in the
order in which the tasks complete, then the lines of `main`. -/
theorem one_thread_output {x0 e0 : Int} {sched : List Choice} {st : State}
    (h : main 1 sched x0 e0 = some st) (hp : st.pc = .halted) :
    ∃ ds, ds ∈ taskOrders ∧ st.output = seqOutput ds := by
  have hi : Inv 1 st := inv_reachable h
  have hl : st.pc.late = true := by rw [hp]; rfl
  obtain ⟨ds, hnd, hds, hcase⟩ := seq_exec sched (inv_init 1 x0 e0) (seq_init x0 e0) h
  have hall : ∀ t, t ∈ ds := fun t => (hds t).mpr (hi.late hl t)
  have htp : taskPart st.trace = seqEvents ds := by
    rcases hcase with ⟨-, htp⟩ | ⟨t1, th1, rest1, hrun, -, -⟩
    · exact htp
    · obtain ⟨k, hk⟩ := hi.late hl t1
      rw [hrun] at hk
      cases hk
  have hs : st.single = 0 := by
    have := hi.sing (by rw [hp]; simp)
    omega
  refine ⟨ds, mem_taskOrders hnd hall, ?_⟩
  unfold State.output seqOutput
  rw [hi.halted_trace hp, outputOf_append, htp, outputOf_mainEvents, hs]
  rfl

theorem nineLines_seqOutput {ds : List Tk} (h : ds ∈ taskOrders) : NineLines (seqOutput ds) := by
  simp only [taskOrders, List.mem_cons, List.mem_singleton, List.not_mem_nil, or_false] at h
  rcases h with rfl | rfl | rfl | rfl | rfl | rfl <;>
    exact ⟨by decide, fun f => by cases f <;> decide, fun t => by cases t <;> decide, by decide⟩

theorem sameLines_seqOutput {d1 d2 : List Tk} (h1 : d1 ∈ taskOrders) (h2 : d2 ∈ taskOrders) :
    SameLines (seqOutput d1) (seqOutput d2) := by
  simp only [taskOrders, List.mem_cons, List.mem_singleton, List.not_mem_nil, or_false] at h1 h2
  unfold SameLines
  rcases h1 with rfl | rfl | rfl | rfl | rfl | rfl <;>
    rcases h2 with rfl | rfl | rfl | rfl | rfl | rfl <;> decide

/-! ## Every node runs once -/

/-- C8 (as stated, refuted). With two threads the start lines of A and B can come out
mixed: the run `demoSchedule` is complete, its first line holds the start tokens of both
A and B and its second line is empty, so the output is not made of the nine whole lines. -/
theorem nine_lines_fails :
    main 2 demoSchedule 5 7 = some demoFinal ∧ demoFinal.pc = .halted ∧
      (linesOf demoFinal.output).map renderLine =
        ["Processing A, th=Processing B, th=01", "", "A Done", "B Done", "Processing C, th=1",
         "C Done", "Processing f1, th=0", "Processing f2, th=0", "e= 31"] ∧
      ¬ NineLines demoFinal.output :=
  ⟨demo_run, by decide, by decide, fun h => absurd (h.2.1 .A) (by decide)⟩


theorem countP_taskPart (p : Ev → Bool) (tr : List Ev) :
    (taskPart tr).countP p = (proj (.task .A) tr).countP p +
      ((proj (.task .B) tr).countP p + (proj (.task .C) tr).countP p) := by
  rw [(taskPart_perm tr).countP_eq, List.countP_append, List.countP_append]

theorem mem_linesAux {l : List Tok} : ∀ (out cur : List Tok), l ∈ linesAux cur out →
    ∀ tk ∈ l, tk ∈ cur ∨ tk ∈ out
  | [], cur, hl, tk, htk => by
      simp only [linesAux] at hl
      split at hl
      · cases hl
      · simp only [List.mem_singleton] at hl
        subst hl
        exact Or.inl (List.mem_reverse.mp htk)
  | .endl :: rest, cur, hl, tk, htk => by
      simp only [linesAux, List.mem_cons] at hl
      rcases hl with hl | hl
      · subst hl
        exact Or.inl (List.mem_reverse.mp htk)
      · rcases mem_linesAux rest [] hl tk htk with h1 | h1
        · cases h1
        · exact Or.inr (List.mem_cons_of_mem _ h1)
  | .str s :: rest, cur, hl, tk, htk => by
      simp only [linesAux] at hl
      rcases mem_linesAux rest _ hl tk htk with h1 | h1
      · rcases List.mem_cons.mp h1 with h2 | h2
        · exact Or.inr (by rw [h2]; exact List.mem_cons_self _ _)
        · exact Or.inl h2
      · exact Or.inr (List.mem_cons_of_mem _ h1)
  | .int i :: rest, cur, hl, tk, htk => by
      simp only [linesAux] at hl
      rcases mem_linesAux rest _ hl tk htk with h1 | h1
      · rcases List.mem_cons.mp h1 with h2 | h2
        · exact Or.inr (by rw [h2]; exact List.mem_cons_self _ _)
        · exact Or.inl h2
      · exact Or.inr (List.mem_cons_of_mem _ h1)

theorem mem_linesOf {l : List Tok} {out : List Tok} (h : l ∈ linesOf out) :
    ∀ tk ∈ l, tk ∈ out := by
  intro tk htk
  rcases mem_linesAux out [] h tk htk with h1 | h1
  · cases h1
  · exact h1

theorem isStartLine_mem {f : Fn} {l : List Tok} (h : isStartLine f l = true) :
    startTok f ∈ l := by
  unfold isStartLine at h
  split at h
  · simp only [decide_eq_true_eq] at h
    simp [h]
  · cases h

theorem isFinalLine_mem {l : List Tok} (h : isFinalLine l = true) : Tok.str "e= " ∈ l := by
  unfold isFinalLine at h
  split at h
  · simp only [decide_eq_true_eq] at h
    simp [h]
  · cases h

theorem countP_eq_zero_of_not_mem {p : List Tok → Bool} {tk : Tok} {out : List Tok}
    (hp : ∀ l, p l = true → tk ∈ l) (hno : tk ∉ out) : (linesOf out).countP p = 0 := by
  rw [List.countP_eq_zero]
  intro l hl hpl
  exact hno (mem_linesOf hl tk (hp l hpl))

/-- The output of the three tasks in a state after the `taskwait`: token counts. -/
theorem Inv.late_counts {n : Nat} {st : State} (h : Inv n st) (hl : st.pc.late = true) :
    (outputOf (taskPart st.trace)).count .endl = 6 ∧
      (∀ f, (outputOf (taskPart st.trace)).count (startTok f) =
        if f = .f1 ∨ f = .f2 then 0 else 1) ∧
      (∀ t, (outputOf (taskPart st.trace)).count (doneTok t) = 1) ∧
      (outputOf (taskPart st.trace)).count (.str "e= ") = 0 := by
  obtain ⟨a, b, c, -, -, -, hperm⟩ := h.late_output_perm hl
  refine ⟨?_, ?_, ?_, ?_⟩
  · rw [hperm.count_eq]; simp [A, B, C, tokensOf]
  · intro f
    rw [hperm.count_eq]
    cases f <;> simp [A, B, C, tokensOf, startTok]
  · intro t
    rw [hperm.count_eq]
    cases t <;> simp [A, B, C, tokensOf, doneTok]
  · rw [hperm.count_eq]; simp [A, B, C, tokensOf]

theorem callCount_taskEvents (f : Fn) (t : Tk) (th : Nat) :
    (taskEvents t th).countP (Ev.isCallOf f) = if t.fn = f then 1 else 0 := by
  cases t <;> cases f <;> rfl

theorem callCount_mainEvents (f : Fn) (s : Nat) :
    (mainEvents s).countP (Ev.isCallOf f) = if f = .f1 ∨ f = .f2 then 1 else 0 := by
  cases f <;> rfl


/-- C8 (amended). In every complete execution of `main`, whatever the pool size and the
schedule, every node of the graph is executed exactly once by exactly one worker: each of
`A`, `B`, `C`, `f1`, `f2` is entered exactly once; the events of each task are the whole
body of the task run by one thread of the team, and the events of `main` are the two
calls and the final print.  The output holds exactly nine line ends, so nine lines, and
exactly one start token for each of the five functions, one completion token for each of
the three tasks and one `e= `; its last three lines are the whole lines of `f1`, of `f2`
and the final line, and no other line is a start line of `f1` or `f2` or a final line.
With a pool of one thread the six lines of the tasks are whole lines too, so the output
is made of the nine lines. -/
theorem each_node_once (n : Nat) (x0 e0 : Int) (sched : List Choice) (st : State)
    (h : main n sched x0 e0 = some st) (hp : st.pc = .halted) :
    (∀ f, st.trace.countP (Ev.isCallOf f) = 1) ∧
      (∀ t, ∃ th, th < n ∧ proj (.task t) st.trace = taskEvents t th) ∧
      (st.single < n ∧ proj .main st.trace = mainEvents st.single) ∧
      st.output.count .endl = 9 ∧ (linesOf st.output).length = 9 ∧
      (∀ f, st.output.count (startTok f) = 1) ∧
      (∀ t, st.output.count (doneTok t) = 1) ∧
      st.output.count (.str "e= ") = 1 ∧
      (∃ ls, ls.length = 6 ∧ linesOf st.output = ls ++
        [[startTok .f1, .int st.single], [startTok .f2, .int st.single],
         [.str "e= ", .int 31]]) ∧
      (linesOf st.output).countP (isStartLine .f1) = 1 ∧
      (linesOf st.output).countP (isStartLine .f2) = 1 ∧
      (linesOf st.output).countP isFinalLine = 1 ∧
      (n = 1 → NineLines st.output) := by
  have hi : Inv n st := inv_reachable h
  have hl : st.pc.late = true := by rw [hp]; rfl
  obtain ⟨o, ho, hout, hlines⟩ := hi.halted_output hp
  obtain ⟨hc1, hc2, hc3, hc4⟩ := hi.late_counts hl
  rw [ho] at hc1 hc2 hc3 hc4
  have hout2 : st.output = (o ++ [.endl]) ++ [.str "Processing f1, th=", .int st.single, .endl,
      .str "Processing f2, th=", .int st.single, .endl, .str "e= ", .int 31, .endl] := by
    rw [hout]; simp
  have hlen : (linesOf (o ++ [.endl])).length = 6 := by
    have := linesAux_length [] o
    have h6 : o.count .endl + 1 = 6 := by simpa using hc1
    unfold linesOf
    omega
  have hmain : proj .main st.trace = mainEvents st.single := by
    have hm := hi.main
    rw [hp] at hm
    exact hm
  refine ⟨?_, ?_, ⟨hi.sing (by rw [hp]; simp), hmain⟩, ?_, ?_, ?_, ?_, ?_, ⟨_, hlen, hlines⟩,
    ?_, ?_, ?_, ?_⟩
  · intro f
    obtain ⟨a, -, -, hpa⟩ := hi.late_tasks hl .A
    obtain ⟨b, -, -, hpb⟩ := hi.late_tasks hl .B
    obtain ⟨c, -, -, hpc⟩ := hi.late_tasks hl .C
    rw [hi.halted_trace hp, List.countP_append, countP_taskPart, hpa, hpb, hpc,
      callCount_taskEvents, callCount_taskEvents, callCount_taskEvents, callCount_mainEvents]
    cases f <;> simp [Tk.fn]
  · intro t
    obtain ⟨th, hth, -, hpt⟩ := hi.late_tasks hl t
    exact ⟨th, hth, hpt⟩
  · rw [hout2, List.count_append, hc1]; simp
  · rw [hlines, List.length_append, hlen]; rfl
  · intro f
    rw [hout2, List.count_append, hc2 f]
    cases f <;> simp [startTok]
  · intro t
    rw [hout2, List.count_append, hc3 t]
    cases t <;> simp [doneTok]
  · rw [hout2, List.count_append, hc4]; simp
  · rw [hlines, List.countP_append,
      countP_eq_zero_of_not_mem (fun l => isStartLine_mem (f := .f1))
        (List.count_eq_zero.mp (by simpa using hc2 .f1))]
    simp [isStartLine, startTok]
  · rw [hlines, List.countP_append,
      countP_eq_zero_of_not_mem (fun l => isStartLine_mem (f := .f2))
        (List.count_eq_zero.mp (by simpa using hc2 .f2))]
    simp [isStartLine, startTok]
  · rw [hlines, List.countP_append,
      countP_eq_zero_of_not_mem (fun l => isFinalLine_mem) (List.count_eq_zero.mp hc4)]
    simp [isFinalLine, startTok]
  · intro hn
    subst hn
    obtain ⟨ds, hds, hseq⟩ := one_thread_output h hp
    rw [hseq]
    exact nineLines_seqOutput hds

theorem each_node_once_witness :
    main 2 demoSchedule 5 7 = some demoFinal ∧ demoFinal.pc = .halted ∧
      (linesOf demoFinal.output).length = 9 ∧
      ∀ f, demoFinal.trace.countP (Ev.isCallOf f) = 1 :=
  have hp : demoFinal.pc = .halted := by decide
  have hk := each_node_once 2 5 7 demoSchedule demoFinal demo_run hp
  ⟨demo_run, hp, hk.2.2.2.2.1, hk.1⟩

/-! ## Two runs compared -/

theorem seq_run : main 1 seqSchedule 5 7 = some seqFinal :=
  eq_some_getD _ (by decide)

/-- C6 (as stated, refuted). Two complete runs whose outputs are not the same lines up
to worker ids and order: in the run on one thread `Processing A, th=0` is a line, in
`demoSchedule` the start lines of A and B are mixed. -/
theorem same_lines_fails :
    main 1 seqSchedule 5 7 = some seqFinal ∧ seqFinal.pc = .halted ∧
      main 2 demoSchedule 5 7 = some demoFinal ∧ demoFinal.pc = .halted ∧
      (linesOf seqFinal.output).map renderLine =
        ["Processing A, th=0", "A Done", "Processing B, th=0", "B Done", "Processing C, th=0",
         "C Done", "Processing f1, th=0", "Processing f2, th=0", "e= 31"] ∧
      ¬ SameLines seqFinal.output demoFinal.output :=
  ⟨seq_run, by decide, demo_run, by decide, by decide, fun h =>
    absurd (h.mem_iff.mp (by decide :
      [Tok.str "Processing A, th=", Tok.int 0] ∈
        (linesOf seqFinal.output).map (List.map eraseId))) (by decide)⟩

theorem eraseId_task_tokens (a b c : Int) :
    (tokensOf (A a).acts ++ (tokensOf (B b).acts ++ tokensOf (C c).acts)).map eraseId =
      (tokensOf (A 0).acts ++ (tokensOf (B 0).acts ++ tokensOf (C 0).acts)) := rfl

/-- C6 (amended). Any two complete executions of `main`, whatever their pool sizes,
schedules and worker ids, end with the line `e= 31`.  Each output is the output of the
three tasks followed by the whole lines of `f1` and `f2` and the final line; once the
worker ids are erased, the outputs of the tasks are permutations of each other token by
token, the lines of `f1` and `f2` are equal, and so the whole outputs are permutations of
each other.  When both pools have one thread, the outputs are also the same lines up to
worker ids and order. -/
theorem runs_agree (n1 n2 : Nat) (x1 e1 x2 e2 : Int) (s1 s2 : List Choice) (st1 st2 : State)
    (h1 : main n1 s1 x1 e1 = some st1) (h2 : main n2 s2 x2 e2 = some st2)
    (hp1 : st1.pc = .halted) (hp2 : st2.pc = .halted) :
    (linesOf st1.output).getLast? = some [.str "e= ", .int 31] ∧
      (linesOf st2.output).getLast? = some [.str "e= ", .int 31] ∧
      (∃ b1 b2 : List Tok,
        st1.output = b1 ++ [.str "Processing f1, th=", .int st1.single, .endl,
          .str "Processing f2, th=", .int st1.single, .endl] ++ [.str "e= ", .int 31, .endl] ∧
        st2.output = b2 ++ [.str "Processing f1, th=", .int st2.single, .endl,
          .str "Processing f2, th=", .int st2.single, .endl] ++ [.str "e= ", .int 31, .endl] ∧
        (b1.map eraseId).Perm (b2.map eraseId)) ∧
      [Tok.str "Processing f1, th=", .int st1.single, .endl,
        .str "Processing f2, th=", .int st1.single, .endl].map eraseId =
      [Tok.str "Processing f1, th=", .int st2.single, .endl,
        .str "Processing f2, th=", .int st2.single, .endl].map eraseId ∧
      (st1.output.map eraseId).Perm (st2.output.map eraseId) ∧
      (n1 = 1 → n2 = 1 → SameLines st1.output st2.output) := by
  have hi1 : Inv n1 st1 := inv_reachable h1
  have hi2 : Inv n2 st2 := inv_reachable h2
  have hl1 : st1.pc.late = true := by rw [hp1]; rfl
  have hl2 : st2.pc.late = true := by rw [hp2]; rfl
  obtain ⟨o1, ho1, hout1, hlines1⟩ := hi1.halted_output hp1
  obtain ⟨o2, ho2, hout2, hlines2⟩ := hi2.halted_output hp2
  obtain ⟨a1, b1, c1, -, -, -, hperm1⟩ := hi1.late_output_perm hl1
  obtain ⟨a2, b2, c2, -, -, -, hperm2⟩ := hi2.late_output_perm hl2
  have hb : ((outputOf (taskPart st1.trace)).map eraseId).Perm
      ((outputOf (taskPart st2.trace)).map eraseId) := by
    have p1 := hperm1.map eraseId
    have p2 := hperm2.map eraseId
    rw [eraseId_task_tokens] at p1 p2
    exact p1.trans p2.symm
  have e1 : st1.output = outputOf (taskPart st1.trace) ++
      [.str "Processing f1, th=", .int st1.single, .endl,
        .str "Processing f2, th=", .int st1.single, .endl] ++ [.str "e= ", .int 31, .endl] := by
    rw [hout1, ho1]; simp
  have e2 : st2.output = outputOf (taskPart st2.trace) ++
      [.str "Processing f1, th=", .int st2.single, .endl,
        .str "Processing f2, th=", .int st2.single, .endl] ++ [.str "e= ", .int 31, .endl] := by
    rw [hout2, ho2]; simp
  refine ⟨by rw [hlines1]; simp, by rw [hlines2]; simp, ⟨_, _, e1, e2, hb⟩, rfl, ?_, ?_⟩
  · rw [e1, e2]
    simp only [List.map_append]
    exact (hb.append (List.Perm.refl _)).append (List.Perm.refl _)
  · intro hn1 hn2
    subst hn1 hn2
    obtain ⟨d1, hd1, hq1⟩ := one_thread_output h1 hp1
    obtain ⟨d2, hd2, hq2⟩ := one_thread_output h2 hp2
    rw [hq1, hq2]
    exact sameLines_seqOutput hd1 hd2

theorem runs_agree_witness :
    main 1 seqSchedule 5 7 = some seqFinal ∧ main 2 demoSchedule 5 7 = some demoFinal ∧
      seqFinal.pc = .halted ∧ demoFinal.pc = .halted ∧
      (seqFinal.output.map eraseId).Perm (demoFinal.output.map eraseId) :=
  have hp1 : seqFinal.pc = .halted := by decide
  have hp2 : demoFinal.pc = .halted := by decide
  ⟨seq_run, demo_run, hp1, hp2,
    (runs_agree 1 2 5 7 5 7 seqSchedule demoSchedule seqFinal demoFinal seq_run demo_run
      hp1 hp2).2.2.2.2.1⟩

end FunctionalParallel
